import Mathlib

/-!
Shallow embedding of the biggus-griddus collection-view pipeline
(`src/unnamed/part_000`): the change-record model, the event-dispatch
primitive, the root `DataSource`, and the `FilterView` / `SortView` /
`WindowView` transforms, together with theorems settling the frozen claims.

Embedding conventions:
* JS numbers holding indices are modelled as `Int` so the `-1` sentinels of
  the source are representable; `Nat` is used only where the source value is
  a list position known to be non-negative.
* Item identifiers (strings produced by the caller-supplied accessor) are
  modelled by a type parameter `ι` with decidable equality; witnesses
  instantiate it with `Nat`.
* JS reference identity (`===`, `indexOf`) is modelled by decidable equality;
  the views under verification hold at most one item per identifier, so the
  two coincide.
* A JS `throw` aborts the remaining statements of the operation; fallible
  operations therefore return the state reached so far together with an
  `Option JsError`.
-/

namespace Biggus

/-- Error values thrown by the source (modelled without message text). -/
inductive JsError : Type
  | duplicateId
  | negativeWindowOffset
  deriving DecidableEq, Repr

/-- Mirrors enum `CollectionChangeType`. -/
inductive ChangeType : Type
  | Insert
  | Update
  | Remove
  | Move
  | Reset
  | Replace
  | Scroll
  deriving DecidableEq, Repr

/-- Mirrors class `CollectionChange<T>`: one change record. Fields a factory
leaves `undefined` are modelled as `none` (for objects) or `false` (for the
`isNewlyAdded` flag). -/
structure CollectionChange (ι T : Type) where
  type : ChangeType
  item : Option T
  itemId : Option ι
  newIndex : Int
  oldItem : Option T
  oldItemId : Option ι
  oldIndex : Int
  isNewlyAdded : Bool
  deriving DecidableEq

/-- Mirrors factory `CollectionChange.insert`. -/
def CollectionChange.insert (item : T) (itemId : ι) (index : Int) (isNewlyAdded : Bool) :
    CollectionChange ι T :=
  ⟨ChangeType.Insert, some item, some itemId, index, none, none, -1, isNewlyAdded⟩

/-- Mirrors factory `CollectionChange.remove`. -/
def CollectionChange.remove (item : T) (itemId : ι) (index : Int) : CollectionChange ι T :=
  ⟨ChangeType.Remove, some item, some itemId, -1, none, none, index, false⟩

/-- Mirrors factory `CollectionChange.replace`. The source factory accepts an
`isNewlyAdded` argument but never assigns the field, so it stays `undefined`
(modelled `false`). -/
def CollectionChange.replace (oldItem : T) (oldItemId : ι) (oldIndex : Int)
    (newItem : T) (newItemId : ι) (newIndex : Int) : CollectionChange ι T :=
  ⟨ChangeType.Replace, some newItem, some newItemId, newIndex,
    some oldItem, some oldItemId, oldIndex, false⟩

/-- Mirrors factory `CollectionChange.update`. -/
def CollectionChange.update (item : T) (itemId : ι) (index : Int) : CollectionChange ι T :=
  ⟨ChangeType.Update, some item, some itemId, index, none, none, -1, false⟩

/-- Mirrors factory `CollectionChange.move`. -/
def CollectionChange.move (item : T) (itemId : ι) (oldIndex : Int) (newIndex : Int) :
    CollectionChange ι T :=
  ⟨ChangeType.Move, some item, some itemId, newIndex, none, none, oldIndex, false⟩

/-- Mirrors factory `CollectionChange.reset`. -/
def CollectionChange.resetChange : CollectionChange ι T :=
  ⟨ChangeType.Reset, none, none, -1, none, none, -1, false⟩

/-- Mirrors factory `CollectionChange.scroll`. -/
def CollectionChange.scrollChange : CollectionChange ι T :=
  ⟨ChangeType.Scroll, none, none, -1, none, none, -1, false⟩

/-- JS `Array.prototype.indexOf`: first index of the element, `-1` when absent. -/
def jsIndexOf [DecidableEq T] (l : List T) (a : T) : Int :=
  match List.indexOf? a l with
  | some i => (i : Int)
  | none => -1

/-- JS `Array.prototype.splice(start, 1)`: a negative start counts from the end
(clamped at 0), a start at or beyond the length removes nothing. -/
def jsSpliceRemoveOne (l : List T) (i : Int) : List T :=
  let start : Int := if i < 0 then max ((l.length : Int) + i) 0 else i
  l.eraseIdx start.toNat

/-- JS `x | 0` truncation toward zero, on exact rationals. -/
def jsTrunc (q : Rat) : Int := q.num.tdiv q.den

/-! ### Event bus (`Event<T>`)

The subscriber list is modelled as a list of tokens, each token standing for
one callback closure pushed by `subscribe` (closures are compared by JS
reference identity, which the tokens mirror). -/

/-- Mirrors the `push` performed by `Event.subscribe`. -/
def eventSubscribe (callbacks : List Nat) (callback : Nat) : List Nat :=
  callbacks ++ [callback]

/-- Mirrors the unsubscribe closure returned by `Event.subscribe`: `indexOf`
then `splice`; an unknown callback only logs a warning. -/
def eventUnsubscribe (callbacks : List Nat) (callback : Nat) : List Nat :=
  match List.indexOf? callback callbacks with
  | none => callbacks
  | some index => callbacks.eraseIdx index

/-- Result of a call to `Event.collect`: the subscriber list once the call has
finished (normally or by propagating an exception), and the exception. -/
structure CollectOutcome (E : Type) where
  subsAfter : List Nat
  thrown : Option E
  deriving DecidableEq

/-- Mirrors `Event.collect`: subscribe a fresh callback, run the handler, then
cancel the subscription. The source has no try/finally, so when the handler
throws, the cancellation statement is never reached. -/
def eventCollect (callbacks : List Nat) (freshCallback : Nat)
    (handlerOutcome : Except E Unit) : CollectOutcome E :=
  let subscribed := eventSubscribe callbacks freshCallback
  match handlerOutcome with
  | Except.ok _ => ⟨eventUnsubscribe subscribed freshCallback, none⟩
  | Except.error e => ⟨subscribed, some e⟩

/-! ### Root collection (`DataSource<T>`) -/

/-- JS object indexing: the value last assigned to the key, if any. -/
def jsObjGet [DecidableEq ι] (m : List (ι × T)) (k : ι) : Option T :=
  match m.find? (fun p => p.1 = k) with
  | some p => some p.2
  | none => none

/-- JS object key assignment: replaces the existing binding, else appends. -/
def jsObjSet [DecidableEq ι] (m : List (ι × T)) (k : ι) (v : T) : List (ι × T) :=
  if m.any (fun p => p.1 = k) then
    m.map (fun p => if p.1 = k then (k, v) else p)
  else
    m ++ [(k, v)]

/-- State of a `DataSource<T>`: the item array and the id-to-item object. -/
structure DataSource (ι T : Type) where
  items : List T
  itemById : List (ι × T)
  deriving DecidableEq

/-- Result of a mutating call: the state reached when the call returned or
threw, the events raised before that point, and the thrown error if any. -/
structure MutationResult (S ι T : Type) where
  state : S
  events : List (CollectionChange ι T)
  error : Option JsError
  deriving DecidableEq

/-- Mirrors `DataSource.add`: throws on a duplicate identifier before touching
any state; otherwise appends, raises `Insert`, then registers the identity. -/
def DataSource.add [DecidableEq ι] (getItemId : T → ι) (s : DataSource ι T) (item : T) :
    MutationResult (DataSource ι T) ι T :=
  let itemId := getItemId item
  if (jsObjGet s.itemById itemId).isSome then
    ⟨s, [], some JsError.duplicateId⟩
  else
    let newItems := s.items ++ [item]
    ⟨⟨newItems, jsObjSet s.itemById itemId item⟩,
      [CollectionChange.insert item itemId ((newItems.length : Int) - 1) true], none⟩

/-- The loop body of `DataSource.addRange`: per item, throw on a duplicate
identifier (abandoning the rest of the batch), else append and register. After
the loop, raise `Reset` then `Scroll`. -/
def DataSource.addRange [DecidableEq ι] (getItemId : T → ι) (s : DataSource ι T) :
    List T → MutationResult (DataSource ι T) ι T
  | [] => ⟨s, [CollectionChange.resetChange, CollectionChange.scrollChange], none⟩
  | item :: rest =>
    let itemId := getItemId item
    if (jsObjGet s.itemById itemId).isSome then
      ⟨s, [], some JsError.duplicateId⟩
    else
      DataSource.addRange getItemId
        ⟨s.items ++ [item], jsObjSet s.itemById itemId item⟩ rest

/-! ### Filter transform (`FilterView<T>`)

Items flowing through the filter are modelled as pairs `(id, value)`; the
source id accessor is `Prod.fst`. The view's visible array stores item
references, compared by identity; since every stored reference comes from the
upstream source, which holds at most one item per id, the array is modelled as
the list of visible ids. -/

/-- A filter item: identifier paired with its current value. -/
abbrev FItem (ι V : Type) := ι × V

/-- State of a `FilterView<T>`: visible ids, the per-id passes cache
(a JS object, modelled as a partial function), and the optional predicate. -/
structure FilterView (ι V : Type) where
  items : List ι
  itemFilterState : ι → Option Bool
  predicate : Option (FItem ι V → Bool)

/-- Evaluation of `event.item && (!this.predicate || this.predicate(event.item))`. -/
def passesOpt (pred : Option (FItem ι V → Bool)) : Option (FItem ι V) → Bool
  | none => false
  | some it =>
    match pred with
    | none => true
    | some p => p it

/-- The passes flag of a known item under an optional predicate. -/
def passesItem (pred : Option (FItem ι V → Bool)) (it : FItem ι V) : Bool :=
  match pred with
  | none => true
  | some p => p it

/-- Mirrors private `FilterView.append`: push to the visible tail and raise
`Insert` at the new tail index. -/
def FilterView.append [DecidableEq ι] (fv : FilterView ι V) (item : FItem ι V) (itemId : ι)
    (isNewlyAdded : Bool) : FilterView ι V × List (CollectionChange ι (FItem ι V)) :=
  let newItems := fv.items ++ [itemId]
  ({ fv with items := newItems },
    [CollectionChange.insert item itemId ((newItems.length : Int) - 1) isNewlyAdded])

/-- Mirrors private `FilterView.remove`: locate by identity scan, splice out,
raise `Remove` at that index. -/
def FilterView.removeVisible [DecidableEq ι] (fv : FilterView ι V) (item : FItem ι V)
    (itemId : ι) : FilterView ι V × List (CollectionChange ι (FItem ι V)) :=
  let index := jsIndexOf fv.items itemId
  ({ fv with items := jsSpliceRemoveOne fv.items index },
    [CollectionChange.remove item itemId index])

/-- One cache entry assignment (`this.itemFilterState[id] = b`). -/
def cacheSet [DecidableEq ι] (cache : ι → Option Bool) (id : ι) (b : Bool) :
    ι → Option Bool :=
  fun k => if k = id then some b else cache k

/-- One cache entry deletion (`delete this.itemFilterState[id]`). -/
def cacheDelete [DecidableEq ι] (cache : ι → Option Bool) (id : ι) : ι → Option Bool :=
  fun k => if k = id then none else cache k

/-- The rebuild loop of the `Reset` case of `FilterView.onSourceChanged`,
with a predicate present: recompute each flag and collect the passing ids. -/
def filterRebuild [DecidableEq ι] (p : FItem ι V → Bool) :
    List (FItem ι V) → (List ι × (ι → Option Bool)) → List ι × (ι → Option Bool)
  | [], acc => acc
  | item :: rest, acc =>
    let matchesFlag := p item
    filterRebuild p rest
      (if matchesFlag then acc.1 ++ [item.1] else acc.1, cacheSet acc.2 item.1 matchesFlag)

/-- The cache loop of the `Reset` case with no predicate: every id maps to true. -/
def filterRebuildAllTrue [DecidableEq ι] :
    List (FItem ι V) → (ι → Option Bool) → ι → Option Bool
  | [], cache => cache
  | item :: rest, cache => filterRebuildAllTrue rest (cacheSet cache item.1 true)

/-- Mirrors `FilterView.onSourceChanged`. `sourceAfter` is the upstream
contents when the handler runs (the upstream mutates before raising). -/
def FilterView.onSourceChanged [DecidableEq ι] (fv : FilterView ι V)
    (sourceAfter : List (FItem ι V)) (event : CollectionChange ι (FItem ι V)) :
    FilterView ι V × List (CollectionChange ι (FItem ι V)) :=
  let passesFilter := passesOpt fv.predicate event.item
  match event.type with
  | ChangeType.Insert =>
    match event.item, event.itemId with
    | some it, some itemId =>
      let fv1 := { fv with itemFilterState := cacheSet fv.itemFilterState itemId passesFilter }
      if passesFilter then fv1.append it itemId event.isNewlyAdded else (fv1, [])
    | _, _ => (fv, [])
  | ChangeType.Remove =>
    if !passesFilter then (fv, [])
    else
      match event.item, event.itemId with
      | some it, some itemId =>
        let fv1 := { fv with itemFilterState := cacheDelete fv.itemFilterState itemId }
        fv1.removeVisible it itemId
      | _, _ => (fv, [])
  | ChangeType.Update =>
    match event.item, event.itemId with
    | some it, some itemId =>
      let priorState := fv.itemFilterState itemId
      if priorState = some passesFilter then
        if priorState = some true then
          let index := jsIndexOf fv.items itemId
          (fv, [CollectionChange.update it itemId index])
        else (fv, [])
      else
        let fv1 := { fv with itemFilterState := cacheSet fv.itemFilterState itemId passesFilter }
        if priorState = some true then fv1.removeVisible it itemId
        else fv1.append it itemId false
    | _, _ => (fv, [])
  | ChangeType.Move => (fv, [])
  | ChangeType.Reset =>
    match fv.predicate with
    | some p =>
      let r := filterRebuild p sourceAfter ([], fun _ => none)
      ({ fv with items := r.1, itemFilterState := r.2 }, [event])
    | none =>
      let cache := filterRebuildAllTrue sourceAfter (fun _ => none)
      ({ fv with items := sourceAfter.map Prod.fst, itemFilterState := cache }, [event])
  | ChangeType.Scroll => (fv, [event])
  | ChangeType.Replace => (fv, [])

/-- The per-item loop of `FilterView.setPredicate`, threading the cache, the
collected passing ids and the has-change flag. -/
def setPredicateLoop [DecidableEq ι] (predicate : Option (FItem ι V → Bool)) :
    List (FItem ι V) → (ι → Option Bool) → List ι → Bool →
      (ι → Option Bool) × List ι × Bool
  | [], cache, filtered, hasChange => (cache, filtered, hasChange)
  | item :: rest, cache, filtered, hasChange =>
    let itemId := item.1
    let passesFilter := passesItem predicate item
    let priorState := cache itemId
    let cache1 := if priorState ≠ some passesFilter then cacheSet cache itemId passesFilter else cache
    let hasChange1 := if priorState ≠ some passesFilter then true else hasChange
    let filtered1 := if passesFilter then filtered ++ [itemId] else filtered
    setPredicateLoop predicate rest cache1 filtered1 hasChange1

/-- Mirrors `FilterView.setPredicate`: store the predicate, recompute every
flag, and only when at least one flag changed adopt the rebuilt sequence and
raise `Reset` then `Scroll`. -/
def FilterView.setPredicate [DecidableEq ι] (fv : FilterView ι V)
    (sourceItems : List (FItem ι V)) (predicate : Option (FItem ι V → Bool)) :
    FilterView ι V × List (CollectionChange ι (FItem ι V)) :=
  let r := setPredicateLoop predicate sourceItems fv.itemFilterState [] false
  if r.2.2 then
    ({ items := r.2.1, itemFilterState := r.1, predicate := predicate },
      [CollectionChange.resetChange, CollectionChange.scrollChange])
  else
    ({ fv with itemFilterState := r.1, predicate := predicate }, [])

/-! ### Upstream operation model for the filter pipeline

The upstream source is an id-keyed list of items; the operations below are
the mutations the root collection can perform, each paired with the change
record it raises (claim C1 ranges over Insert, Remove, Update, Reset events
and `setPredicate` calls). -/

/-- One upstream mutation or filter reconfiguration. -/
inductive SourceOp (ι V : Type) where
  | insertItem (id : ι) (v : V)
  | removeAt (idx : Nat)
  | updateItem (id : ι) (v : V)
  | resetTo (newItems : List (FItem ι V))
  | setPred (p : Option (FItem ι V → Bool))

/-- Effect of an operation on the upstream item list. -/
def applySourceOp [DecidableEq ι] (u : List (FItem ι V)) : SourceOp ι V → List (FItem ι V)
  | SourceOp.insertItem id v => u ++ [(id, v)]
  | SourceOp.removeAt idx => u.eraseIdx idx
  | SourceOp.updateItem id v => u.map (fun it => if it.1 = id then (id, v) else it)
  | SourceOp.resetTo l => l
  | SourceOp.setPred _ => u

/-- The change record the upstream raises for an operation (none for a
`setPredicate` call, which is an operation on the view itself). -/
def sourceEvent [DecidableEq ι] [Inhabited ι] [Inhabited V] (u : List (FItem ι V)) :
    SourceOp ι V → Option (CollectionChange ι (FItem ι V))
  | SourceOp.insertItem id v =>
    some (CollectionChange.insert (id, v) id (u.length : Int) true)
  | SourceOp.removeAt idx =>
    some (CollectionChange.remove (u.getD idx default) (u.getD idx default).1 (idx : Int))
  | SourceOp.updateItem id v =>
    some (CollectionChange.update (id, v) id (jsIndexOf (u.map Prod.fst) id))
  | SourceOp.resetTo _ => some CollectionChange.resetChange
  | SourceOp.setPred _ => none

/-- Combined state: the upstream contents and the filter view over them. -/
structure FilterSys (ι V : Type) where
  upstream : List (FItem ι V)
  view : FilterView ι V

/-- One step of the combined system: mutate upstream, then let the view
process the raised event (or run `setPredicate`). -/
def filterStep [DecidableEq ι] [Inhabited ι] [Inhabited V] (s : FilterSys ι V)
    (op : SourceOp ι V) : FilterSys ι V :=
  match op with
  | SourceOp.setPred p => { s with view := (s.view.setPredicate s.upstream p).1 }
  | _ =>
    let uAfter := applySourceOp s.upstream op
    match sourceEvent s.upstream op with
    | some ev => { upstream := uAfter, view := (s.view.onSourceChanged uAfter ev).1 }
    | none => { s with upstream := uAfter }

/-- Well-formedness of one operation against the current upstream: the root
collection rejects duplicate ids, removals are in range, updates concern a
present item, and a reset installs a duplicate-free collection. -/
def SourceOpWf [DecidableEq ι] (u : List (FItem ι V)) : SourceOp ι V → Prop
  | SourceOp.insertItem id _ => id ∉ u.map Prod.fst
  | SourceOp.removeAt idx => idx < u.length
  | SourceOp.updateItem id _ => id ∈ u.map Prod.fst
  | SourceOp.resetTo l => (l.map Prod.fst).Nodup
  | SourceOp.setPred _ => True

/-- Well-formedness of an operation sequence run from a state. -/
def WfOps [DecidableEq ι] [Inhabited ι] [Inhabited V] :
    FilterSys ι V → List (SourceOp ι V) → Prop
  | _, [] => True
  | s, op :: rest => SourceOpWf s.upstream op ∧ WfOps (filterStep s op) rest

/-- Running an operation sequence. -/
def filterRun [DecidableEq ι] [Inhabited ι] [Inhabited V] (s : FilterSys ι V)
    (ops : List (SourceOp ι V)) : FilterSys ι V :=
  ops.foldl filterStep s

/-- The state after constructing `FilterView(source, predicate)` over upstream
contents `u0`: empty visible array and cache, then the constructor's
`setPredicate` call. -/
def filterInit [DecidableEq ι] (u0 : List (FItem ι V))
    (p0 : Option (FItem ι V → Bool)) : FilterSys ι V :=
  { upstream := u0,
    view := (FilterView.setPredicate ⟨[], fun _ => none, none⟩ u0 p0).1 }

/-- A concrete predicate over `Nat`-keyed `Int` items: value strictly
positive. -/
def c1pred : Option (FItem Nat Int → Bool) :=
  some fun it => 0 < it.2

/-- A concrete operation run: insert a failing item, insert a passing item,
then update the first so it starts passing. -/
def c1ops : List (SourceOp Nat Int) :=
  [SourceOp.insertItem 1 0, SourceOp.insertItem 2 5, SourceOp.updateItem 1 7]

/-! ### Binary-search insertion (`findInsertionIndex`) -/

/-- The statements after the while loop of `findInsertionIndex`. -/
def fiiPost [Inhabited T] (items : List T) (target : T) (comparator : T → T → Int)
    (minIndex : Nat) : Nat :=
  if minIndex = items.length - 1 ∧
      comparator (items.getD (items.length - 1) default) target < 0 then
    items.length
  else minIndex

/-- The while loop of `findInsertionIndex`, as a structural recursion on a
fuel counter spending one unit per iteration; the cursor gap shrinks every
iteration, so any fuel exceeding the initial gap reproduces the loop exactly
(the caller passes the list length). `(minIndex + maxIndex) / 2 | 0` is floor
division on non-negative numbers. -/
def fiiLoop [DecidableEq T] [Inhabited T] (items : List T) (target : T)
    (comparator : T → T → Int) : Nat → Nat → Nat → Nat
  | 0, minIndex, _ => fiiPost items target comparator minIndex
  | fuel + 1, minIndex, maxIndex =>
    if minIndex < maxIndex then
      let index := (minIndex + maxIndex) / 2
      let item := items.getD index default
      if item = target then
        if index = 0 then minIndex
        else if index = items.length - 1 then items.length - 1
        else
          let orderedBelow : Bool := comparator (items.getD (index - 1) default) target < 0
          let orderedAbove : Bool := comparator target (items.getD (index + 1) default) < 0
          if orderedBelow = orderedAbove then index
          else if orderedBelow then fiiLoop items target comparator fuel (index + 1) maxIndex
          else fiiLoop items target comparator fuel minIndex (index - 1)
      else
        let comp := comparator target item
        if comp = 0 then index
        else if comp > 0 then fiiLoop items target comparator fuel (index + 1) maxIndex
        else fiiLoop items target comparator fuel minIndex index
    else fiiPost items target comparator minIndex

/-- Mirrors `findInsertionIndex<T>`. -/
def findInsertionIndex [DecidableEq T] [Inhabited T] (items : List T) (target : T)
    (comparator : T → T → Int) : Nat :=
  if items.length = 0 then 0
  else fiiLoop items target comparator items.length 0 (items.length - 1)

/-! ### Sort transform (`SortView<T>`) -/

/-- Mirrors enum `SortDirection`. -/
inductive SortDirection : Type
  | Ascending
  | Descending
  deriving DecidableEq, Repr

/-- Mirrors the module-level `compare` lambda. Sort values are `Option K`
(`none` is JS `undefined`, which sorts last regardless of direction). -/
def compareVals [DecidableEq K] [LinearOrder K]
    (a b : Option K) (sortDir : SortDirection) : Int :=
  if a = b then 0
  else
    match a, b with
    | none, _ => 1
    | _, none => -1
    | some x, some y =>
      if x < y then (if sortDir = SortDirection.Ascending then -1 else 1)
      else (if sortDir = SortDirection.Ascending then 1 else -1)

/-- State of a `SortView<T>`. Columns are an abstract type `C` compared by
reference identity; their behaviour enters through the accessor functions
passed to each operation. -/
structure SortView (T C : Type) where
  items : List T
  sortColumn : Option C
  sortDirection : SortDirection
  deriving DecidableEq

/-- The comparator closure built inside `SortView` wherever it sorts or
searches: compare the column's sort values under the active direction. -/
def sortComparator [DecidableEq K] [LinearOrder K]
    (getSortValue : C → T → Option K) (col : C) (dir : SortDirection) : T → T → Int :=
  fun a b => compareVals (getSortValue col a) (getSortValue col b) dir

/-- Mirrors private `SortView.reset`: re-sort the maintained sequence when a
sort column is active (JS `Array.sort`, stable in a modern engine, modelled by
`mergeSort`), then raise `Reset`. -/
def SortView.resetView [DecidableEq K] [LinearOrder K]
    (getSortValue : C → T → Option K) (sv : SortView T C) :
    SortView T C × List (CollectionChange ι T) :=
  let newItems :=
    match sv.sortColumn with
    | some col =>
      sv.items.mergeSort fun a b =>
        sortComparator getSortValue col sv.sortDirection a b ≤ 0
    | none => sv.items
  ({ sv with items := newItems }, [CollectionChange.resetChange])

/-- Mirrors `SortView.setSortColumn`: a null column clears the sort state and
returns straight away; reselecting the active column toggles the direction;
a new column adopts its default direction; the latter two re-sort and raise
`Reset` via `reset`. -/
def SortView.setSortColumn [DecidableEq C] [DecidableEq K] [LinearOrder K]
    (getSortValue : C → T → Option K) (getDefaultSortDirection : C → SortDirection)
    (sv : SortView T C) (column : Option C) :
    SortView T C × List (CollectionChange ι T) :=
  match column with
  | none =>
    ({ sv with sortColumn := none, sortDirection := SortDirection.Ascending }, [])
  | some col =>
    let dir :=
      if sv.sortColumn = some col then
        if sv.sortDirection = SortDirection.Ascending then SortDirection.Descending
        else SortDirection.Ascending
      else getDefaultSortDirection col
    SortView.resetView getSortValue { sv with sortColumn := some col, sortDirection := dir }

/-- Mirrors the `Update` case of `SortView.onSourceChanged`: locate the item,
find its sorted insertion index, adjust for the removal shift, and either
update in place or splice-move. -/
def SortView.onUpdate [DecidableEq T] [Inhabited T] [DecidableEq K] [LinearOrder K]
    (getSortValue : C → T → Option K) (sv : SortView T C) (item : T) (itemId : ι) :
    SortView T C × List (CollectionChange ι T) :=
  let oldIndex := jsIndexOf sv.items item
  let newIndex : Int :=
    match sv.sortColumn with
    | some col =>
      (findInsertionIndex sv.items item
        (sortComparator getSortValue col sv.sortDirection) : Int)
    | none => oldIndex
  let adjustedNewIndex := if oldIndex < newIndex then newIndex - 1 else newIndex
  if oldIndex = adjustedNewIndex then
    (sv, [CollectionChange.update item itemId oldIndex])
  else
    let removed := jsSpliceRemoveOne sv.items oldIndex
    ({ sv with items := removed.insertIdx adjustedNewIndex.toNat item },
      [CollectionChange.move item itemId oldIndex adjustedNewIndex])

/-! ### Window transform (`WindowView<T>`) -/

/-- State of a `WindowView<T>`: capacity and offset (JS numbers). -/
structure WindowView : Type where
  windowSize : Int
  offset : Int
  deriving DecidableEq, Repr

/-- Mirrors private `WindowView.remove`: when the upstream still has an item
to backfill the window, raise `Replace` (slide one in from the bottom), else a
plain windowed `Remove`; always followed by `Scroll`. `sourceItems` is the
upstream contents after the removal. -/
def WindowView.removeEvents [Inhabited T] (getItemId : T → ι) (w : WindowView)
    (sourceItems : List T) (item : T) (itemId : ι) (windowIndex : Int) :
    List (CollectionChange ι T) :=
  if w.offset + w.windowSize ≤ (sourceItems.length : Int) then
    let appendItem := sourceItems.getD (w.offset + w.windowSize - 1).toNat default
    [CollectionChange.replace item itemId windowIndex
        appendItem (getItemId appendItem) (w.windowSize - 1),
      CollectionChange.scrollChange]
  else
    [CollectionChange.remove item itemId windowIndex, CollectionChange.scrollChange]

/-- Mirrors the `Remove` case of `WindowView.onSourceChanged`: translate an
in-window removal via `remove`; a removal before the window decrements the
offset silently and raises `Scroll`; a removal after it raises `Scroll` only.
`sourceAfter` is the upstream contents after the removal. -/
def WindowView.onRemove [Inhabited T] [Inhabited ι] (getItemId : T → ι) (w : WindowView)
    (sourceAfter : List T) (event : CollectionChange ι T) :
    WindowView × List (CollectionChange ι T) :=
  let windowIndex := event.oldIndex - w.offset
  if 0 ≤ windowIndex ∧ windowIndex < w.windowSize then
    (w, w.removeEvents getItemId sourceAfter (event.item.getD default)
      (event.itemId.getD default) windowIndex)
  else
    if windowIndex < 0 then
      ({ w with offset := w.offset - 1 }, [CollectionChange.scrollChange])
    else
      (w, [CollectionChange.scrollChange])

/-- One iteration of the scrolling-down loop of `setWindowOffset`: remove the
row leaving at the top, introduce the row entering at the bottom when the
upstream has one; when the upstream has neither, the iteration is silent. -/
def windowDownRowEvent [Inhabited T] (getItemId : T → ι) (items : List T)
    (oldOffset windowSize : Int) (i : Nat) : Option (CollectionChange ι T) :=
  let removeIndex := oldOffset + (i : Int)
  let insertIndex := oldOffset + windowSize + (i : Int)
  let validRemove := 0 ≤ removeIndex ∧ removeIndex < (items.length : Int)
  let validInsert := 0 ≤ insertIndex ∧ insertIndex < (items.length : Int)
  if validRemove then
    let removeItem := items.getD removeIndex.toNat default
    let insertItem := items.getD insertIndex.toNat default
    if validInsert then
      some (CollectionChange.replace removeItem (getItemId removeItem) 0
        insertItem (getItemId insertItem) (windowSize - 1))
    else
      some (CollectionChange.remove removeItem (getItemId removeItem) 0)
  else none

/-- One iteration of the scrolling-up loop of `setWindowOffset` (which runs
with the offset already updated): remove the row leaving at the bottom,
introduce the row entering at the top. -/
def windowUpRowEvent [Inhabited T] (getItemId : T → ι) (items : List T)
    (newOffset windowSize : Int) (i : Nat) : Option (CollectionChange ι T) :=
  let removeIndex := newOffset + windowSize + (i : Int)
  let insertIndex := newOffset + (i : Int)
  let validRemove := 0 ≤ removeIndex ∧ removeIndex < (items.length : Int)
  let validInsert := 0 ≤ insertIndex ∧ insertIndex < (items.length : Int)
  if validInsert then
    let removeItem := items.getD removeIndex.toNat default
    let insertItem := items.getD insertIndex.toNat default
    if validRemove then
      some (CollectionChange.replace removeItem (getItemId removeItem) (windowSize - 1)
        insertItem (getItemId insertItem) 0)
    else
      some (CollectionChange.insert insertItem (getItemId insertItem) 0 false)
  else none

/-- Mirrors `WindowView.setWindowOffset`: truncate the argument to an integer,
return straight away when it equals the current offset, throw when negative;
then either reset wholesale (move of at least half the window size, by real
division) or emit per-row diffs in the scroll direction, ending with `Scroll`.
`sourceItems` is the upstream contents. -/
def WindowView.setWindowOffset [Inhabited T] (getItemId : T → ι) (w : WindowView)
    (sourceItems : List T) (offsetArg : Rat) :
    MutationResult WindowView ι T :=
  let offset := jsTrunc offsetArg
  if w.offset = offset then ⟨w, [], none⟩
  else if offset < 0 then ⟨w, [], some JsError.negativeWindowOffset⟩
  else
    let oldOffset := w.offset
    let w1 : WindowView := { w with offset := offset }
    let diff := offset - oldOffset
    let items := sourceItems
    if (w1.windowSize : Rat) / 2 ≤ ((diff.natAbs : Int) : Rat) then
      ⟨w1, [CollectionChange.resetChange, CollectionChange.scrollChange], none⟩
    else if 0 < diff then
      ⟨w1, ((List.range diff.toNat).filterMap
          (windowDownRowEvent getItemId items oldOffset w1.windowSize))
        ++ [CollectionChange.scrollChange], none⟩
    else
      ⟨w1, ((List.range diff.natAbs).reverse.filterMap
          (windowUpRowEvent getItemId items w1.offset w1.windowSize))
        ++ [CollectionChange.scrollChange], none⟩

/-! ## Helper lemmas -/

/-- The position of a fresh element appended at the tail. -/
theorem indexOfOpt_append_self (l : List Nat) (a : Nat) (h : a ∉ l) :
    List.indexOf? a (l ++ [a]) = some l.length := by
  induction l with
  | nil => simp [List.indexOf?_cons]
  | cons c cs ih =>
    have hca : (c == a) = false := by
      simp only [beq_eq_false_iff_ne, ne_eq]
      rintro rfl
      exact h (List.mem_cons_self c cs)
    have h2 : a ∉ cs := fun m => h (List.mem_cons_of_mem _ m)
    simp [List.indexOf?_cons, hca, ih h2]

/-- Erasing the appended tail element restores the list. -/
theorem eraseIdx_append_self (l : List T) (a : T) : (l ++ [a]).eraseIdx l.length = l := by
  rw [List.eraseIdx_eq_take_drop_succ, List.take_left]
  have : List.drop (l.length + 1) (l ++ [a]) = [] := by
    apply List.drop_eq_nil_of_le
    simp
  simp [this]

/-! ## C9: `Event.collect` unsubscription -/

/-- C9 counterexample: with one prior subscriber and a handler that throws,
`collect` leaves its temporary subscriber behind, so the subscriber list after
the call differs from the one before it, contrary to the claim that they are
equal regardless of how the handler exits. -/
theorem c9_collect_throw_leaks :
    (eventCollect (E := Nat) [0] 1 (Except.error 7)).subsAfter = [0, 1] ∧
    (eventCollect (E := Nat) [0] 1 (Except.error 7)).subsAfter ≠ [0] := by
  constructor
  · rfl
  · decide

/-- C9 (amended): when the handler returns normally, `collect` removes the
temporary subscription it created (the fresh callback closure is distinct from
every existing subscriber), restoring the previous subscriber list; when the
handler throws, the cancellation is skipped and the temporary subscriber
remains appended. -/
theorem c9_collect_unsubscribes (E : Type) (callbacks : List Nat) (freshCallback : Nat)
    (hfresh : freshCallback ∉ callbacks) :
    (eventCollect (E := E) callbacks freshCallback (Except.ok ())).subsAfter = callbacks ∧
    (∀ e : E, (eventCollect callbacks freshCallback (Except.error e)).subsAfter =
      callbacks ++ [freshCallback]) := by
  refine ⟨?_, fun e => rfl⟩
  show eventUnsubscribe (callbacks ++ [freshCallback]) freshCallback = callbacks
  rw [eventUnsubscribe, indexOfOpt_append_self callbacks freshCallback hfresh]
  exact eraseIdx_append_self callbacks freshCallback

/-- C9 witness: the amended theorem applied at a concrete bus. -/
theorem c9_collect_unsubscribes_witness :
    (9 ∉ [5, 7]) ∧
    (eventCollect (E := Nat) [5, 7] 9 (Except.ok ())).subsAfter = [5, 7] :=
  ⟨by decide, (c9_collect_unsubscribes Nat [5, 7] 9 (by decide)).1⟩

/-! ## C3: duplicate identifiers on insertion -/

/-- The state the `addRange` loop reaches after appending and registering a
prefix of the batch (the loop body without its duplicate check). -/
def dsAppendAll [DecidableEq ι] (getItemId : T → ι) : DataSource ι T → List T → DataSource ι T
  | s, [] => s
  | s, item :: rest =>
    dsAppendAll getItemId ⟨s.items ++ [item], jsObjSet s.itemById (getItemId item) item⟩ rest

/-- Every item of the batch has a fresh identifier at the point the `addRange`
loop reaches it. -/
def dsAllFresh [DecidableEq ι] (getItemId : T → ι) : DataSource ι T → List T → Prop
  | _, [] => True
  | s, item :: rest =>
    (jsObjGet s.itemById (getItemId item)).isSome = false ∧
    dsAllFresh getItemId ⟨s.items ++ [item], jsObjSet s.itemById (getItemId item) item⟩ rest

/-- C3 counterexample: a collection holding id 1; `addRange` of a batch whose
second item reuses id 1 throws, yet afterwards the first batch item remains
appended to the item sequence and registered in the identifier map, contrary
to the claim that state is exactly as before the call. -/
theorem c3_addRange_partial_state :
    (DataSource.addRange Prod.fst
        (⟨[(1, 10)], [(1, (1, 10))]⟩ : DataSource Nat (Nat × Int))
        [(2, 20), (1, 30)]).error = some JsError.duplicateId ∧
    (DataSource.addRange Prod.fst
        (⟨[(1, 10)], [(1, (1, 10))]⟩ : DataSource Nat (Nat × Int))
        [(2, 20), (1, 30)]).state ≠ ⟨[(1, 10)], [(1, (1, 10))]⟩ := by
  constructor
  · rfl
  · decide

/-- C3 (amended): `add` of a duplicate identifier throws and leaves the state
exactly unchanged with no event; `addRange` throws upon reaching the first
batch item whose identifier is already registered and raises no event, but the
batch items processed before it remain appended and registered. -/
theorem c3_duplicate_id_rejection [DecidableEq ι] (getItemId : T → ι) :
    (∀ (s : DataSource ι T) (item : T),
      (jsObjGet s.itemById (getItemId item)).isSome →
      DataSource.add getItemId s item = ⟨s, [], some JsError.duplicateId⟩) ∧
    (∀ (s : DataSource ι T) (pre : List T) (dup : T) (rest : List T),
      dsAllFresh getItemId s pre →
      (jsObjGet (dsAppendAll getItemId s pre).itemById (getItemId dup)).isSome →
      DataSource.addRange getItemId s (pre ++ dup :: rest) =
        ⟨dsAppendAll getItemId s pre, [], some JsError.duplicateId⟩) := by
  constructor
  · intro s item hdup
    rw [DataSource.add]
    simp only [hdup, if_true]
  · intro s pre
    induction pre generalizing s with
    | nil =>
      intro dup rest _ hdup
      rw [dsAppendAll] at hdup ⊢
      rw [List.nil_append, DataSource.addRange]
      simp only [hdup, if_true]
    | cons item tail ih =>
      intro dup rest hfresh hdup
      rw [dsAllFresh] at hfresh
      rw [dsAppendAll] at hdup ⊢
      rw [List.cons_append, DataSource.addRange]
      simp only [hfresh.1, Bool.false_eq_true, if_false]
      exact ih _ dup rest hfresh.2 hdup

/-- C3 witness: the amended theorem applied to a concrete collection and a
concrete batch with a duplicate in second position. -/
theorem c3_duplicate_id_rejection_witness :
    ((jsObjGet ([(1, (1, 10))] : List (Nat × (Nat × Int))) 1).isSome = true ∧
      DataSource.add Prod.fst (⟨[(1, 10)], [(1, (1, 10))]⟩ : DataSource Nat (Nat × Int))
        (1, 30) = ⟨⟨[(1, 10)], [(1, (1, 10))]⟩, [], some JsError.duplicateId⟩) ∧
    DataSource.addRange Prod.fst (⟨[(1, 10)], [(1, (1, 10))]⟩ : DataSource Nat (Nat × Int))
        ([(2, 20)] ++ (1, 30) :: []) =
      ⟨⟨[(1, 10), (2, 20)], [(1, (1, 10)), (2, (2, 20))]⟩, [], some JsError.duplicateId⟩ := by
  have h := c3_duplicate_id_rejection (ι := Nat) (T := Nat × Int) Prod.fst
  refine ⟨⟨by decide, h.1 _ _ (by decide)⟩, ?_⟩
  have h2 := h.2 (⟨[(1, 10)], [(1, (1, 10))]⟩ : DataSource Nat (Nat × Int))
    [(2, 20)] (1, 30) [] ⟨by decide, trivial⟩ (by decide)
  rw [h2]
  decide

/-! ## C10: `setWindowOffset` truncation and early return -/

/-- Truncation toward zero sends every rational strictly between -1 and 0
to 0. -/
theorem jsTrunc_neg_fraction (q : Rat) (h1 : -1 < q) (h2 : q < 0) : jsTrunc q = 0 := by
  have hnum : q.num < 0 := Rat.num_neg.mpr h2
  have hden : -(q.den : Int) < q.num := by
    have hd : (0 : Rat) < (q.den : Rat) := by exact_mod_cast q.pos
    have h3 : (-1 : Rat) * q.den < q.num := by
      calc (-1 : Rat) * q.den < q * q.den := mul_lt_mul_of_pos_right h1 hd
      _ = q.num := Rat.mul_den_eq_num q
    have h4 : ((-(q.den : Int) : Int) : Rat) < ((q.num : Int) : Rat) := by push_cast; linarith
    exact_mod_cast h4
  have hzero : (-q.num).tdiv q.den = 0 :=
    Int.tdiv_eq_zero_of_lt (by omega) (by omega)
  have := Int.neg_tdiv q.num q.den
  rw [jsTrunc]
  omega

/-- The `|0` of an integer argument is itself. -/
theorem jsTrunc_intCast (n : Int) : jsTrunc ((n : Rat)) = n := by
  rw [jsTrunc, Rat.num_intCast, Rat.den_intCast, Nat.cast_one, Int.tdiv_one]

/-- A `setWindowOffset` call whose truncated argument is non-negative never
throws. -/
theorem setWindowOffset_error_none {ι T : Type} [Inhabited T] (getItemId : T → ι)
    (w : WindowView) (items : List T) (q : Rat) (h : ¬ jsTrunc q < 0) :
    (WindowView.setWindowOffset getItemId w items q).error = none := by
  rw [WindowView.setWindowOffset, if_neg h]
  split
  · rfl
  · dsimp only
    split
    · rfl
    · split <;> rfl

/-- C10 (confirmed): `setWindowOffset` truncates its argument via `|0` before
any validation, so an argument strictly between -1 and 0 behaves exactly like
an argument of 0 and is never rejected as negative; and when the truncated
argument equals the current offset the call returns at once — no event, no
state change, and no sign validation (the early return fires even for a
negative stored offset). -/
theorem c10_setWindowOffset_truncation {ι T : Type} [Inhabited T] (getItemId : T → ι)
    (w : WindowView) (items : List T) (q : Rat) :
    (-1 < q → q < 0 →
      jsTrunc q = 0 ∧
      WindowView.setWindowOffset getItemId w items q =
        WindowView.setWindowOffset getItemId w items 0 ∧
      (WindowView.setWindowOffset getItemId w items q).error = none) ∧
    (jsTrunc q = w.offset →
      WindowView.setWindowOffset getItemId w items q = ⟨w, [], none⟩) := by
  constructor
  · intro h1 h2
    have ht : jsTrunc q = 0 := jsTrunc_neg_fraction q h1 h2
    have ht0 : jsTrunc 0 = 0 := by rw [jsTrunc]; simp
    have heq : WindowView.setWindowOffset getItemId w items q =
        WindowView.setWindowOffset getItemId w items 0 := by
      rw [WindowView.setWindowOffset, WindowView.setWindowOffset, ht, ht0]
    refine ⟨ht, heq, ?_⟩
    exact setWindowOffset_error_none getItemId w items q (by omega)
  · intro h
    rw [WindowView.setWindowOffset, h]
    simp

/-- C10 witness: a fractional offset of -1/2 on a window at offset 3 behaves
like 0 (reset path), and a call passing the current offset is a silent no-op. -/
theorem c10_setWindowOffset_truncation_witness :
    ((-1 : Rat) < -1 / 2 ∧ (-1 : Rat) / 2 < 0 ∧
      (WindowView.setWindowOffset (ι := Nat) Prod.fst ⟨4, 3⟩
        ([(1, 0), (2, 0), (3, 0), (4, 0), (5, 0), (6, 0)] : List (Nat × Int))
        (-1 / 2)).error = none) ∧
    (jsTrunc 3 = (3 : Int) ∧
      WindowView.setWindowOffset (ι := Nat) Prod.fst ⟨4, 3⟩
        ([(1, 0), (2, 0), (3, 0), (4, 0), (5, 0), (6, 0)] : List (Nat × Int)) 3 =
        ⟨⟨4, 3⟩, [], none⟩) := by
  have h := c10_setWindowOffset_truncation (ι := Nat) Prod.fst ⟨4, 3⟩
    ([(1, 0), (2, 0), (3, 0), (4, 0), (5, 0), (6, 0)] : List (Nat × Int))
  refine ⟨⟨by norm_num, by norm_num, ((h (-1 / 2)).1 (by norm_num) (by norm_num)).2.2⟩,
    ⟨by norm_num [jsTrunc], (h 3).2 (by norm_num [jsTrunc])⟩⟩

/-! ## C5: `setSortColumn` -/

/-- On two present sort values, the source `compare` lambda yields a
non-positive result exactly when the values are ordered under the active
direction. -/
theorem compareVals_some_le_iff [DecidableEq K] [LinearOrder K] (dir : SortDirection)
    (x y : K) :
    compareVals (some x) (some y) dir ≤ 0 ↔
      (if dir = SortDirection.Ascending then x ≤ y else y ≤ x) := by
  rw [compareVals]
  by_cases hxy : (some x : Option K) = some y
  · have hx : x = y := by injection hxy
    subst hx
    simp
  · rw [if_neg hxy]
    have hne : x ≠ y := fun h => hxy (by rw [h])
    by_cases hlt : x < y
    · have h1 : x ≤ y := le_of_lt hlt
      have h2 : ¬y ≤ x := not_le.mpr hlt
      by_cases hdir : dir = SortDirection.Ascending <;>
        simp [hlt, hdir, h1, h2]
    · have hyx : y < x := lt_of_le_of_ne (not_lt.mp hlt) fun h => hne h.symm
      have h1 : y ≤ x := le_of_lt hyx
      have h2 : ¬x ≤ y := not_le.mpr hyx
      by_cases hdir : dir = SortDirection.Ascending <;>
        simp [hlt, hdir, h1, h2]

/-- A missing sort value compares after everything, so against `none` the
result is non-positive. -/
theorem compareVals_none_right_le [DecidableEq K] [LinearOrder K] (dir : SortDirection)
    (a : Option K) : compareVals a none dir ≤ 0 := by
  rcases a with _ | x <;> simp [compareVals]

/-- Against a present sort value, a missing one compares strictly after. -/
theorem compareVals_none_left_pos [DecidableEq K] [LinearOrder K] (dir : SortDirection)
    (y : K) : ¬compareVals none (some y) dir ≤ 0 := by
  simp [compareVals]

/-- The order induced by the source `compare` lambda is transitive. -/
theorem compareVals_le_trans [DecidableEq K] [LinearOrder K] (dir : SortDirection)
    (a b c : Option K) (h1 : compareVals a b dir ≤ 0) (h2 : compareVals b c dir ≤ 0) :
    compareVals a c dir ≤ 0 := by
  rcases a with _ | x <;> rcases b with _ | y <;> rcases c with _ | z
  · exact compareVals_none_right_le dir none
  · exact absurd h2 (compareVals_none_left_pos dir z)
  · exact absurd h1 (compareVals_none_left_pos dir y)
  · exact absurd h1 (compareVals_none_left_pos dir y)
  · exact compareVals_none_right_le dir (some x)
  · exact absurd h2 (compareVals_none_left_pos dir z)
  · exact compareVals_none_right_le dir (some x)
  · rw [compareVals_some_le_iff] at h1 h2 ⊢
    by_cases hdir : dir = SortDirection.Ascending
    · rw [if_pos hdir] at h1 h2 ⊢
      exact le_trans h1 h2
    · rw [if_neg hdir] at h1 h2 ⊢
      exact le_trans h2 h1

/-- The order induced by the source `compare` lambda is total. -/
theorem compareVals_le_total [DecidableEq K] [LinearOrder K] (dir : SortDirection)
    (a b : Option K) : compareVals a b dir ≤ 0 ∨ compareVals b a dir ≤ 0 := by
  rcases a with _ | x <;> rcases b with _ | y
  · exact Or.inl (compareVals_none_right_le dir none)
  · exact Or.inr (compareVals_none_right_le dir (some y))
  · exact Or.inl (compareVals_none_right_le dir (some x))
  · rw [compareVals_some_le_iff, compareVals_some_le_iff]
    by_cases hdir : dir = SortDirection.Ascending
    · rw [if_pos hdir, if_pos hdir]
      exact le_total x y
    · rw [if_neg hdir, if_neg hdir]
      exact le_total y x

/-- The direction `setSortColumn` adopts for a selected column: toggled when
the column is already active, else the column's default. -/
def newDir [DecidableEq C] (getDefaultSortDirection : C → SortDirection)
    (sv : SortView T C) (col : C) : SortDirection :=
  if sv.sortColumn = some col then
    (if sv.sortDirection = SortDirection.Ascending then SortDirection.Descending
      else SortDirection.Ascending)
  else getDefaultSortDirection col

/-- C5 counterexample: with an active sort column and a descending direction,
`setSortColumn(null)` returns after clearing the column and direction — it
performs no re-sort (the maintained sequence keeps its current order rather
than reverting to upstream order) and raises no `Reset` event, contrary to the
claim that all three cases re-sort and raise `Reset`. -/
theorem c5_null_column_is_silent :
    SortView.setSortColumn (ι := Nat) (fun _ : Unit => fun t : Nat × Int => some t.2)
        (fun _ => SortDirection.Ascending)
        (⟨[(0, 5), (1, 2)], some (), SortDirection.Descending⟩ : SortView (Nat × Int) Unit)
        none =
      (⟨[(0, 5), (1, 2)], none, SortDirection.Ascending⟩, []) := by
  rfl

/-- C5 (amended): reselecting the active key toggles the direction and any
other key adopts its default direction, and in those two cases the view
re-sorts (the result is a permutation of the maintained sequence, pairwise
ordered by the new comparator) and raises exactly one `Reset`; but selecting
no key (null) only clears the sort column and resets the direction to
ascending — the maintained sequence is left in its current order and no event
is raised. -/
theorem c5_setSortColumn_behavior {ι T C K : Type} [DecidableEq C] [DecidableEq K]
    [LinearOrder K] (getSortValue : C → T → Option K)
    (getDefaultSortDirection : C → SortDirection) (sv : SortView T C) :
    (SortView.setSortColumn (ι := ι) getSortValue getDefaultSortDirection sv none =
      ({ sv with sortColumn := none, sortDirection := SortDirection.Ascending }, [])) ∧
    (∀ col,
      (SortView.setSortColumn (ι := ι) getSortValue getDefaultSortDirection sv
          (some col)).1.sortColumn = some col ∧
      (SortView.setSortColumn (ι := ι) getSortValue getDefaultSortDirection sv
          (some col)).1.sortDirection = newDir getDefaultSortDirection sv col ∧
      (SortView.setSortColumn (ι := ι) getSortValue getDefaultSortDirection sv
          (some col)).2 = [CollectionChange.resetChange] ∧
      (SortView.setSortColumn (ι := ι) getSortValue getDefaultSortDirection sv
          (some col)).1.items.Perm sv.items ∧
      List.Pairwise
        (fun a b =>
          sortComparator getSortValue col (newDir getDefaultSortDirection sv col) a b ≤ 0)
        (SortView.setSortColumn (ι := ι) getSortValue getDefaultSortDirection sv
          (some col)).1.items) := by
  refine ⟨rfl, fun col => ?_⟩
  have hsorted := @List.sorted_mergeSort T
    (fun a b : T =>
      decide (sortComparator getSortValue col (newDir getDefaultSortDirection sv col) a b ≤ 0))
    (fun a b c h1 h2 => by
      simp only [decide_eq_true_eq] at h1 h2 ⊢
      exact compareVals_le_trans _ _ _ _ h1 h2)
    (fun a b => by
      simp only [Bool.or_eq_true, decide_eq_true_eq]
      exact compareVals_le_total _ _ _)
    sv.items
  refine ⟨rfl, rfl, rfl, List.mergeSort_perm sv.items _, ?_⟩
  exact hsorted.imp (by simp only [decide_eq_true_eq]; exact fun h => h)

/-- C5 witness: the amended theorem applied to a concrete sort view; selecting
the already-active column toggles descending to ascending, re-sorts and raises
`Reset`. -/
theorem c5_setSortColumn_behavior_witness :
    (SortView.setSortColumn (ι := Nat) (fun _ : Unit => fun t : Nat × Int => some t.2)
        (fun _ => SortDirection.Ascending)
        (⟨[(0, 5), (1, 2)], some (), SortDirection.Descending⟩ : SortView (Nat × Int) Unit)
        (some ())).1.items.Perm [(0, 5), (1, 2)] ∧
    (SortView.setSortColumn (ι := Nat) (fun _ : Unit => fun t : Nat × Int => some t.2)
        (fun _ => SortDirection.Ascending)
        (⟨[(0, 5), (1, 2)], some (), SortDirection.Descending⟩ : SortView (Nat × Int) Unit)
        (some ())).2 = [CollectionChange.resetChange] :=
  ⟨((c5_setSortColumn_behavior (ι := Nat) _ _ _).2 ()).2.2.2.1,
    ((c5_setSortColumn_behavior (ι := Nat) _ _ _).2 ()).2.2.1⟩

/-! ## C7: window translation of upstream `Remove` -/

/-- C7 counterexample: window of size 2 at offset 0; the upstream removes the
item at index 0 (inside the window) leaving three items, enough to backfill:
the window view raises `Replace` (the removed row swapped for the backfill
row) then `Scroll` — it raises no `Remove`-typed event at all, contrary to the
claim that an in-window removal yields a windowed `Remove`. -/
theorem c7_inwindow_remove_backfills :
    WindowView.onRemove (ι := Nat) Prod.fst ⟨2, 0⟩
        ([(2, 0), (3, 0), (4, 0)] : List (Nat × Int))
        (CollectionChange.remove ((1 : Nat), (0 : Int)) 1 0) =
      (⟨2, 0⟩,
        [CollectionChange.replace ((1 : Nat), (0 : Int)) 1 0 ((3 : Nat), (0 : Int)) 3 1,
          CollectionChange.scrollChange]) ∧
    ∀ e ∈ (WindowView.onRemove (ι := Nat) Prod.fst ⟨2, 0⟩
        ([(2, 0), (3, 0), (4, 0)] : List (Nat × Int))
        (CollectionChange.remove ((1 : Nat), (0 : Int)) 1 0)).2,
      e.type ≠ ChangeType.Remove := by
  constructor
  · rfl
  · decide

/-- C7 (amended): on an upstream `Remove` at index `i`, the window view with
offset `o` and size `s`: when `o ≤ i < o + s` (inside), it keeps its state
and raises — when the post-removal upstream still has at least `o + s` items —
a `Replace` of the removed row at `i - o` by the backfill row at `s - 1`,
else a windowed `Remove` at `i - o`; in both inside sub-cases followed by
`Scroll`. When `i < o` it decrements the offset and raises only `Scroll`;
when `i ≥ o + s` it raises only `Scroll`. -/
theorem c7_remove_translation {ι T : Type} [Inhabited T] [Inhabited ι] (getItemId : T → ι)
    (w : WindowView) (sourceAfter : List T) (event : CollectionChange ι T)
    (hsize : 0 ≤ w.windowSize) :
    (w.offset ≤ event.oldIndex ∧ event.oldIndex < w.offset + w.windowSize →
      (WindowView.onRemove getItemId w sourceAfter event).1 = w ∧
      (w.offset + w.windowSize ≤ (sourceAfter.length : Int) →
        (WindowView.onRemove getItemId w sourceAfter event).2 =
          [CollectionChange.replace (event.item.getD default) (event.itemId.getD default)
              (event.oldIndex - w.offset)
              (sourceAfter.getD (w.offset + w.windowSize - 1).toNat default)
              (getItemId (sourceAfter.getD (w.offset + w.windowSize - 1).toNat default))
              (w.windowSize - 1),
            CollectionChange.scrollChange]) ∧
      ((sourceAfter.length : Int) < w.offset + w.windowSize →
        (WindowView.onRemove getItemId w sourceAfter event).2 =
          [CollectionChange.remove (event.item.getD default) (event.itemId.getD default)
              (event.oldIndex - w.offset),
            CollectionChange.scrollChange])) ∧
    (event.oldIndex < w.offset →
      WindowView.onRemove getItemId w sourceAfter event =
        ({ w with offset := w.offset - 1 }, [CollectionChange.scrollChange])) ∧
    (w.offset + w.windowSize ≤ event.oldIndex →
      WindowView.onRemove getItemId w sourceAfter event =
        (w, [CollectionChange.scrollChange])) := by
  refine ⟨fun hin => ?_, fun hbefore => ?_, fun hafter => ?_⟩
  · rw [WindowView.onRemove, if_pos (by omega)]
    refine ⟨rfl, fun hback => ?_, fun hnoback => ?_⟩
    · rw [WindowView.removeEvents, if_pos hback]
    · rw [WindowView.removeEvents, if_neg (by omega)]
  · rw [WindowView.onRemove, if_neg (by omega), if_pos (by omega)]
  · rw [WindowView.onRemove, if_neg (by omega), if_neg (by omega)]

/-- C7 witness: the amended theorem applied at the three concrete positions of
a removal relative to a window of size 2 at offset 2. -/
theorem c7_remove_translation_witness :
    (WindowView.onRemove (ι := Nat) Prod.fst ⟨2, 2⟩
        ([(2, 0), (3, 0), (4, 0)] : List (Nat × Int))
        (CollectionChange.remove ((1 : Nat), (0 : Int)) 1 0)) =
      (⟨2, 1⟩, [CollectionChange.scrollChange]) ∧
    (WindowView.onRemove (ι := Nat) Prod.fst ⟨2, 2⟩
        ([(2, 0), (3, 0), (4, 0)] : List (Nat × Int))
        (CollectionChange.remove ((9 : Nat), (0 : Int)) 9 5)) =
      (⟨2, 2⟩, [CollectionChange.scrollChange]) :=
  ⟨(c7_remove_translation (ι := Nat) Prod.fst ⟨2, 2⟩ _ _ (by decide)).2.1 (by decide),
    (c7_remove_translation (ι := Nat) Prod.fst ⟨2, 2⟩ _ _ (by decide)).2.2 (by decide)⟩

/-! ## C4: sort view `Update` events -/

/-- C4 (confirmed): with an active sort column, an upstream `Update` for an
item of the maintained sequence raises exactly one `Update` at the item's
current index when the insertion index adjusted for the removal shift equals
that index, and otherwise exactly one `Move` whose target is the insertion
index minus one when it lies after the current index and the insertion index
itself otherwise. -/
theorem c4_sort_update_events {ι T C K : Type} [DecidableEq T] [Inhabited T] [DecidableEq K]
    [LinearOrder K] (getSortValue : C → T → Option K) (sv : SortView T C) (col : C)
    (hcol : sv.sortColumn = some col) (item : T) (itemId : ι) :
    ((if jsIndexOf sv.items item <
          (findInsertionIndex sv.items item
            (sortComparator getSortValue col sv.sortDirection) : Int) then
        (findInsertionIndex sv.items item
          (sortComparator getSortValue col sv.sortDirection) : Int) - 1
      else
        (findInsertionIndex sv.items item
          (sortComparator getSortValue col sv.sortDirection) : Int)) =
        jsIndexOf sv.items item →
      (SortView.onUpdate (ι := ι) getSortValue sv item itemId).2 =
        [CollectionChange.update item itemId (jsIndexOf sv.items item)] ∧
      (SortView.onUpdate (ι := ι) getSortValue sv item itemId).1 = sv) ∧
    (∀ adjusted,
      adjusted =
        (if jsIndexOf sv.items item <
            (findInsertionIndex sv.items item
              (sortComparator getSortValue col sv.sortDirection) : Int) then
          (findInsertionIndex sv.items item
            (sortComparator getSortValue col sv.sortDirection) : Int) - 1
        else
          (findInsertionIndex sv.items item
            (sortComparator getSortValue col sv.sortDirection) : Int)) →
      adjusted ≠ jsIndexOf sv.items item →
      (SortView.onUpdate (ι := ι) getSortValue sv item itemId).2 =
        [CollectionChange.move item itemId (jsIndexOf sv.items item) adjusted]) := by
  rw [SortView.onUpdate, hcol]
  constructor
  · intro heq
    rw [if_pos heq.symm]
    exact ⟨rfl, rfl⟩
  · intro adjusted hadj hne
    subst hadj
    rw [if_neg (fun h => hne h.symm)]

/-- C4 witness: a concrete three-item ascending sort view; updating the middle
item without changing its relative order raises one `Update` at index 1, and
updating the first item to the largest key raises one `Move` from 0 to 2. -/
theorem c4_sort_update_events_witness :
    (SortView.onUpdate (ι := Nat) (fun _ : Unit => fun t : Nat × Int => some t.2)
        (⟨[(0, 1), (1, 2), (2, 3)], some (), SortDirection.Ascending⟩ :
          SortView (Nat × Int) Unit) (1, 2) 1).2 =
      [CollectionChange.update ((1 : Nat), (2 : Int)) 1 1] ∧
    (SortView.onUpdate (ι := Nat) (fun _ : Unit => fun t : Nat × Int => some t.2)
        (⟨[(0, 9), (1, 2), (2, 3)], some (), SortDirection.Ascending⟩ :
          SortView (Nat × Int) Unit) (0, 9) 0).2 =
      [CollectionChange.move ((0 : Nat), (9 : Int)) 0 0 2] := by
  constructor
  · exact ((c4_sort_update_events (ι := Nat) _ _ () rfl (1, 2) 1).1 (by decide)).1
  · exact (c4_sort_update_events (ι := Nat) _ _ () rfl (0, 9) 0).2 2 (by decide) (by decide)

/-! ## C8: `setPredicate` -/

/-- The collected passing ids of the `setPredicate` loop are the upstream
items passing the new predicate, in upstream order, after the accumulator. -/
theorem setPredicateLoop_filtered [DecidableEq ι] (predicate : Option (FItem ι V → Bool))
    (u : List (FItem ι V)) :
    ∀ cache filtered hasChange,
      (setPredicateLoop predicate u cache filtered hasChange).2.1 =
        filtered ++ (u.filter fun it => passesItem predicate it).map Prod.fst := by
  induction u with
  | nil => intro cache filtered hasChange; simp [setPredicateLoop]
  | cons hd rest ih =>
    intro cache filtered hasChange
    rw [setPredicateLoop]
    split_ifs <;> simp [List.filter_cons, ih, *]

/-- The `setPredicate` loop leaves cache keys outside the traversed items
untouched. -/
theorem setPredicateLoop_cache_frozen [DecidableEq ι]
    (predicate : Option (FItem ι V → Bool)) (u : List (FItem ι V)) (k : ι)
    (hk : k ∉ u.map Prod.fst) :
    ∀ cache filtered hasChange,
      (setPredicateLoop predicate u cache filtered hasChange).1 k = cache k := by
  induction u with
  | nil => intro cache filtered hasChange; rfl
  | cons hd rest ih =>
    intro cache filtered hasChange
    have hne : k ≠ hd.1 := fun h => hk (by simp [h])
    have hk2 : k ∉ rest.map Prod.fst := fun h => hk (by simp [h])
    rw [setPredicateLoop]
    split_ifs <;> rw [ih hk2] <;> simp [cacheSet, hne]

/-- After the `setPredicate` loop, the cache maps every traversed item to its
freshly computed passes flag (upstream identifiers being unique). -/
theorem setPredicateLoop_cache [DecidableEq ι] (predicate : Option (FItem ι V → Bool))
    (u : List (FItem ι V)) (hnodup : (u.map Prod.fst).Nodup) :
    ∀ cache filtered hasChange, ∀ it ∈ u,
      (setPredicateLoop predicate u cache filtered hasChange).1 it.1 =
        some (passesItem predicate it) := by
  induction u with
  | nil => intro cache filtered hasChange it hit; exact absurd hit (List.not_mem_nil it)
  | cons hd rest ih =>
    intro cache filtered hasChange it hit
    have hnd1 : hd.1 ∉ rest.map Prod.fst := (List.nodup_cons.mp hnodup).1
    have hnd2 : (rest.map Prod.fst).Nodup := (List.nodup_cons.mp hnodup).2
    rcases List.mem_cons.mp hit with rfl | hmem
    · rw [setPredicateLoop]
      split_ifs <;> rw [setPredicateLoop_cache_frozen predicate rest it.1 hnd1] <;>
        first
          | simp [cacheSet]
          | exact not_ne_iff.mp (by assumption)
    · rw [setPredicateLoop]
      split_ifs <;> exact ih hnd2 _ _ _ it hmem

/-- The has-change flag of the `setPredicate` loop is set exactly when some
traversed item's cached flag disagrees with its freshly computed one. -/
theorem setPredicateLoop_hasChange [DecidableEq ι] (predicate : Option (FItem ι V → Bool))
    (u : List (FItem ι V)) (hnodup : (u.map Prod.fst).Nodup) :
    ∀ cache filtered hasChange,
      (setPredicateLoop predicate u cache filtered hasChange).2.2 = true ↔
        hasChange = true ∨ ∃ it ∈ u, cache it.1 ≠ some (passesItem predicate it) := by
  induction u with
  | nil =>
    intro cache filtered hasChange
    simp [setPredicateLoop]
  | cons hd rest ih =>
    intro cache filtered hasChange
    have hnd1 : hd.1 ∉ rest.map Prod.fst := (List.nodup_cons.mp hnodup).1
    have hnd2 : (rest.map Prod.fst).Nodup := (List.nodup_cons.mp hnodup).2
    have hsame : ∀ it ∈ rest, ∀ b : Bool,
        cacheSet cache hd.1 b it.1 = cache it.1 := by
      intro it hmem b
      have : it.1 ≠ hd.1 := by
        intro h
        exact hnd1 (h ▸ List.mem_map_of_mem Prod.fst hmem)
      simp [cacheSet, this]
    have posCase : cache hd.1 ≠ some (passesItem predicate hd) →
        ((true = true ∨ ∃ it ∈ rest,
            cacheSet cache hd.1 (passesItem predicate hd) it.1 ≠
              some (passesItem predicate it)) ↔
          (hasChange = true ∨ ∃ it ∈ hd :: rest,
            cache it.1 ≠ some (passesItem predicate it))) := by
      intro hA
      constructor
      · intro _
        exact Or.inr ⟨hd, List.mem_cons_self hd rest, hA⟩
      · intro _
        exact Or.inl rfl
    have negCase : ¬cache hd.1 ≠ some (passesItem predicate hd) →
        ((hasChange = true ∨ ∃ it ∈ rest,
            cache it.1 ≠ some (passesItem predicate it)) ↔
          (hasChange = true ∨ ∃ it ∈ hd :: rest,
            cache it.1 ≠ some (passesItem predicate it))) := by
      intro hA
      constructor
      · rintro (h | ⟨it, hmem, hne⟩)
        · exact Or.inl h
        · exact Or.inr ⟨it, List.mem_cons_of_mem hd hmem, hne⟩
      · rintro (h | ⟨it, hmem, hne⟩)
        · exact Or.inl h
        · rcases List.mem_cons.mp hmem with rfl | hmem2
          · exact absurd (not_ne_iff.mp hA) hne
          · exact Or.inr ⟨it, hmem2, hne⟩
    have hexch : ∀ f1 : List ι, (∃ it ∈ rest,
        cacheSet cache hd.1 (passesItem predicate hd) it.1 ≠
          some (passesItem predicate it)) ↔
        (∃ it ∈ rest, cache it.1 ≠ some (passesItem predicate it)) := by
      intro f1
      constructor <;> rintro ⟨it, hmem, hne⟩ <;> refine ⟨it, hmem, ?_⟩
      · rw [hsame it hmem] at hne
        exact hne
      · rw [hsame it hmem]
        exact hne
    rw [setPredicateLoop]
    split_ifs with hA hB <;> rw [ih hnd2] <;>
      first
        | exact posCase hA
        | exact negCase hA

/-- C8 (confirmed): `setPredicate` recomputes the pass flag of every upstream
item; when at least one flag changed it installs the rebuilt visible sequence
(the upstream items passing the new predicate, in upstream order) and raises
exactly `Reset` then `Scroll`; when no flag changed — in particular when
re-applying a predicate equivalent to the current one — it raises no events
and leaves the visible sequence untouched. -/
theorem c8_setPredicate_iff [DecidableEq ι] (fv : FilterView ι V)
    (u : List (FItem ι V)) (p : Option (FItem ι V → Bool))
    (hnodup : (u.map Prod.fst).Nodup) :
    (∀ it ∈ u,
      (fv.setPredicate u p).1.itemFilterState it.1 = some (passesItem p it)) ∧
    (fv.setPredicate u p).1.predicate = p ∧
    ((∃ it ∈ u, fv.itemFilterState it.1 ≠ some (passesItem p it)) →
      (fv.setPredicate u p).2 =
        [CollectionChange.resetChange, CollectionChange.scrollChange] ∧
      (fv.setPredicate u p).1.items = (u.filter fun it => passesItem p it).map Prod.fst) ∧
    ((∀ it ∈ u, fv.itemFilterState it.1 = some (passesItem p it)) →
      (fv.setPredicate u p).2 = [] ∧ (fv.setPredicate u p).1.items = fv.items) := by
  have hchg := setPredicateLoop_hasChange p u hnodup fv.itemFilterState [] false
  have hfil := setPredicateLoop_filtered p u fv.itemFilterState [] false
  have hcache := setPredicateLoop_cache p u hnodup fv.itemFilterState [] false
  refine ⟨?_, ?_, ?_, ?_⟩
  · intro it hit
    rw [FilterView.setPredicate]
    split_ifs <;> exact hcache it hit
  · rw [FilterView.setPredicate]
    split_ifs <;> rfl
  · intro hex
    have : (setPredicateLoop p u fv.itemFilterState [] false).2.2 = true :=
      (hchg).mpr (Or.inr hex)
    rw [FilterView.setPredicate, if_pos this]
    exact ⟨rfl, by rw [hfil, List.nil_append]⟩
  · intro hall
    have : ¬(setPredicateLoop p u fv.itemFilterState [] false).2.2 = true := by
      rw [hchg]
      rintro (h | ⟨it, hmem, hne⟩)
      · exact Bool.false_ne_true h
      · exact hne (hall it hmem)
    rw [FilterView.setPredicate, if_neg this]
    exact ⟨rfl, rfl⟩

/-- C8 witness: over two upstream items, installing a predicate that flips one
flag raises `Reset` then `Scroll` and rebuilds; re-applying an equivalent
predicate afterwards raises nothing and keeps the sequence. -/
theorem c8_setPredicate_iff_witness :
    ((⟨[1, 2], fun k => if k ≤ 2 then some true else none, none⟩ :
        FilterView Nat Int).setPredicate [(1, 0), (2, 5)]
        (some fun it => 0 < it.2)).2 =
      [CollectionChange.resetChange, CollectionChange.scrollChange] ∧
    ((⟨[2], fun k => if k = 1 then some false else if k = 2 then some true else none,
        some fun it => 0 < it.2⟩ :
        FilterView Nat Int).setPredicate [(1, 0), (2, 5)]
        (some fun it => 0 ≤ it.2 - 1)).2 = [] := by
  constructor
  · exact ((c8_setPredicate_iff _ [(1, 0), (2, 5)] _ (by decide)).2.2.1
      ⟨(1, 0), by decide, by decide⟩).1
  · exact ((c8_setPredicate_iff _ [(1, 0), (2, 5)] _ (by decide)).2.2.2
      (by decide)).1

/-! ## C6: `setWindowOffset` diffing -/

/-- The source reset test `Math.abs(diff) >= windowSize / 2` (real division)
is the integer condition `windowSize ≤ 2 * |diff|`. -/
theorem windowResetCondition_iff (windowSize diff : Int) :
    ((windowSize : Rat) / 2 ≤ ((diff.natAbs : Int) : Rat)) ↔
      windowSize ≤ 2 * (diff.natAbs : Int) := by
  rw [div_le_iff₀ (by norm_num : (0 : Rat) < 2)]
  constructor
  · intro h
    have h2 : ((windowSize : Int) : Rat) ≤ ((2 * (diff.natAbs : Int) : Int) : Rat) := by
      push_cast at h ⊢
      linarith
    exact_mod_cast h2
  · intro h
    have h2 : ((windowSize : Int) : Rat) ≤ ((2 * (diff.natAbs : Int) : Int) : Rat) := by
      exact_mod_cast h
    push_cast at h2 ⊢
    linarith

/-- C6 (confirmed): for a non-negative integer offset different from the
current one, `setWindowOffset` succeeds, installs the new offset, and raises:
exactly `Reset` then `Scroll` when the distance moved is at least half the
window size (by real division — so a move of exactly half the size takes the
reset path); otherwise, per shifted row in the scroll direction, a `Replace`
of the row leaving the window by the row entering it — degrading to a plain
`Remove` (scrolling down) or `Insert` (scrolling up) at the boundary when the
upstream has no item for one of the two slots, and to nothing when it has
neither — followed by exactly one `Scroll`. -/
theorem c6_setWindowOffset_behavior {ι T : Type} [Inhabited T] (getItemId : T → ι)
    (w : WindowView) (items : List T) (n : Int) (hn : 0 ≤ n) (hne : n ≠ w.offset) :
    (WindowView.setWindowOffset getItemId w items (n : Rat)).error = none ∧
    (WindowView.setWindowOffset getItemId w items (n : Rat)).state =
      { w with offset := n } ∧
    (w.windowSize ≤ 2 * ((n - w.offset).natAbs : Int) →
      (WindowView.setWindowOffset getItemId w items (n : Rat)).events =
        [CollectionChange.resetChange, CollectionChange.scrollChange]) ∧
    (2 * ((n - w.offset).natAbs : Int) < w.windowSize →
      (w.offset < n →
        (WindowView.setWindowOffset getItemId w items (n : Rat)).events =
          (List.range (n - w.offset).toNat).filterMap
              (windowDownRowEvent getItemId items w.offset w.windowSize) ++
            [CollectionChange.scrollChange]) ∧
      (n < w.offset →
        (WindowView.setWindowOffset getItemId w items (n : Rat)).events =
          (List.range (n - w.offset).natAbs).reverse.filterMap
              (windowUpRowEvent getItemId items n w.windowSize) ++
            [CollectionChange.scrollChange])) := by
  rw [WindowView.setWindowOffset, jsTrunc_intCast n,
    if_neg (fun h => hne h.symm), if_neg (by omega)]
  dsimp only
  by_cases hbig : w.windowSize ≤ 2 * ((n - w.offset).natAbs : Int)
  · rw [if_pos ((windowResetCondition_iff w.windowSize (n - w.offset)).mpr hbig)]
    exact ⟨rfl, rfl, fun _ => rfl, fun hsmall => absurd hbig (by omega)⟩
  · rw [if_neg (fun h =>
      hbig ((windowResetCondition_iff w.windowSize (n - w.offset)).mp h))]
    by_cases hdown : 0 < n - w.offset
    · rw [if_pos hdown]
      exact ⟨rfl, rfl, fun h => absurd h hbig,
        fun _ => ⟨fun _ => rfl, fun h => absurd h (by omega)⟩⟩
    · rw [if_neg hdown]
      exact ⟨rfl, rfl, fun h => absurd h hbig,
        fun _ => ⟨fun h => absurd h (by omega), fun _ => rfl⟩⟩

/-- C6 witness: over six upstream rows with a window of size 4 at offset 0,
moving to offset 2 — exactly half the window size — takes the reset path,
while moving to offset 1 emits one `Replace` then one `Scroll`. -/
theorem c6_setWindowOffset_behavior_witness :
    (WindowView.setWindowOffset (ι := Nat) Prod.fst ⟨4, 0⟩
        ([(1, 0), (2, 0), (3, 0), (4, 0), (5, 0), (6, 0)] : List (Nat × Int))
        ((2 : Int) : Rat)).events =
      [CollectionChange.resetChange, CollectionChange.scrollChange] ∧
    (WindowView.setWindowOffset (ι := Nat) Prod.fst ⟨4, 0⟩
        ([(1, 0), (2, 0), (3, 0), (4, 0), (5, 0), (6, 0)] : List (Nat × Int))
        ((1 : Int) : Rat)).events =
      [CollectionChange.replace ((1 : Nat), (0 : Int)) 1 0 ((5 : Nat), (0 : Int)) 5 3,
        CollectionChange.scrollChange] := by
  constructor
  · exact (c6_setWindowOffset_behavior (ι := Nat) Prod.fst ⟨4, 0⟩ _ 2
      (by decide) (by decide)).2.2.1 (by decide)
  · rw [((c6_setWindowOffset_behavior (ι := Nat) Prod.fst ⟨4, 0⟩ _ 1
      (by decide) (by decide)).2.2.2 (by decide)).1 (by decide)]
    decide

/-! ## C2: `findInsertionIndex` -/

/-- The non-strict order a comparator induces. -/
def cmpLe (c : T → T → Int) (a b : T) : Prop := c a b ≤ 0

instance [DecidableEq T] (c : T → T → Int) : DecidableRel (cmpLe c) :=
  fun a b => inferInstanceAs (Decidable (c a b ≤ 0))

/-- Sortedness under a comparator: all pairs in order. -/
def SortedBy (c : T → T → Int) (l : List T) : Prop := List.Pairwise (cmpLe c) l

instance [DecidableEq T] (c : T → T → Int) (l : List T) : Decidable (SortedBy c l) :=
  inferInstanceAs (Decidable (List.Pairwise (cmpLe c) l))

/-- The comparator contract of the spec, as the sort view relies on it:
comparing an element with itself gives 0, swapping the arguments flips the
sign, and the induced order is transitive (strictly so when one side is
strict). -/
structure LawfulCmp (c : T → T → Int) : Prop where
  refl0 : ∀ a, c a a = 0
  flipSign : ∀ a b, c a b = -c b a
  leTrans : ∀ a b d, c a b ≤ 0 → c b d ≤ 0 → c a d ≤ 0
  ltOfLeOfLt : ∀ a b d, c a b ≤ 0 → c b d < 0 → c a d < 0
  ltOfLtOfLe : ∀ a b d, c a b < 0 → c b d ≤ 0 → c a d < 0

/-- In a sorted list, any earlier-or-equal position compares non-positively
against a later one. -/
theorem sortedBy_le [Inhabited T] {c : T → T → Int} (laws : LawfulCmp c) {l : List T}
    (hs : SortedBy c l) (q r : Nat) (hqr : q ≤ r) (hr : r < l.length) :
    c (l.getD q default) (l.getD r default) ≤ 0 := by
  rcases eq_or_lt_of_le hqr with rfl | hlt
  · rw [laws.refl0]
  · have hq : q < l.length := lt_trans hlt hr
    have := List.pairwise_iff_get.mp hs ⟨q, hq⟩ ⟨r, hr⟩ hlt
    rw [cmpLe] at this
    rw [List.getD_eq_getElem l default hq, List.getD_eq_getElem l default hr]
    simpa using this

/-- Postcondition of the `findInsertionIndex` loop on a sorted list: the
returned index is within bounds and the target fits between its neighbours. -/
theorem fiiLoop_post [DecidableEq T] [Inhabited T] {c : T → T → Int} (laws : LawfulCmp c)
    {items : List T} (hs : SortedBy c items) (target : T) :
    ∀ fuel minIndex maxIndex,
      maxIndex - minIndex < fuel →
      minIndex ≤ items.length - 1 →
      maxIndex ≤ items.length - 1 →
      0 < items.length →
      (∀ j, j < minIndex → c (items.getD j default) target ≤ 0) →
      (maxIndex = items.length - 1 ∨ c target (items.getD maxIndex default) ≤ 0) →
      (maxIndex < minIndex → items.getD minIndex default = target) →
      fiiLoop items target c fuel minIndex maxIndex ≤ items.length ∧
      (1 ≤ fiiLoop items target c fuel minIndex maxIndex →
        c (items.getD (fiiLoop items target c fuel minIndex maxIndex - 1) default)
          target ≤ 0) ∧
      (fiiLoop items target c fuel minIndex maxIndex < items.length →
        c target (items.getD (fiiLoop items target c fuel minIndex maxIndex) default)
          ≤ 0) := by
  intro fuel
  induction fuel with
  | zero => intro minIndex maxIndex hfuel; omega
  | succ fuel ih =>
    intro minIndex maxIndex hfuel hmin hmax hlen P3 P4 P5
    rw [fiiLoop]
    by_cases hlt : minIndex < maxIndex
    · rw [if_pos hlt]
      have hidx1 : minIndex ≤ (minIndex + maxIndex) / 2 := by omega
      have hidx2 : (minIndex + maxIndex) / 2 ≤ maxIndex - 1 := by omega
      have hidxlen : (minIndex + maxIndex) / 2 < items.length := by omega
      by_cases hteq : items.getD ((minIndex + maxIndex) / 2) default = target
      · rw [if_pos hteq]
        by_cases hi0 : (minIndex + maxIndex) / 2 = 0
        · rw [if_pos hi0]
          have hm0 : minIndex = 0 := by omega
          refine ⟨by omega, by omega, fun _ => ?_⟩
          rw [hm0, ← hi0, hteq, laws.refl0]
        · rw [if_neg hi0]
          by_cases hiLast : (minIndex + maxIndex) / 2 = items.length - 1
          · exact absurd hiLast (by omega)
          · rw [if_neg hiLast]
            by_cases hob : c (items.getD ((minIndex + maxIndex) / 2 - 1) default) target < 0
            · by_cases hoa : c target (items.getD ((minIndex + maxIndex) / 2 + 1) default) < 0
              · rw [if_pos (by rw [decide_eq_decide]; exact iff_of_true hob hoa)]
                refine ⟨by omega, fun _ => ?_, fun _ => ?_⟩
                · have hadj := sortedBy_le laws hs ((minIndex + maxIndex) / 2 - 1)
                    ((minIndex + maxIndex) / 2) (by omega) hidxlen
                  rw [hteq] at hadj
                  exact hadj
                · rw [hteq, laws.refl0]
              · rw [if_neg (fun h => hoa ((decide_eq_decide.mp h).mp hob)),
                  if_pos (by rw [decide_eq_true_eq]; exact hob)]
                refine ih ((minIndex + maxIndex) / 2 + 1) maxIndex (by omega) (by omega)
                  hmax hlen ?_ P4 (by omega)
                intro j hj
                rcases Nat.lt_succ_iff_lt_or_eq.mp hj with hj2 | rfl
                · rcases Nat.lt_succ_iff_lt_or_eq.mp (by omega :
                    j < ((minIndex + maxIndex) / 2 - 1) + 1) with hj3 | rfl
                  · have hle := sortedBy_le laws hs j ((minIndex + maxIndex) / 2 - 1)
                      (by omega) (by omega)
                    exact le_of_lt (laws.ltOfLeOfLt _ _ _ hle hob)
                  · exact le_of_lt hob
                · rw [hteq, laws.refl0]
            · by_cases hoa : c target (items.getD ((minIndex + maxIndex) / 2 + 1) default) < 0
              · rw [if_neg (fun h => hob ((decide_eq_decide.mp h).mpr hoa)),
                  if_neg (by rw [decide_eq_true_eq]; exact hob)]
                refine ih minIndex ((minIndex + maxIndex) / 2 - 1) (by omega) hmin
                  (by omega) hlen P3 ?_ ?_
                · right
                  rw [laws.flipSign]
                  omega
                · intro hlt2
                  have : minIndex = (minIndex + maxIndex) / 2 := by omega
                  rw [← this] at hteq
                  exact hteq
              · rw [if_pos (by rw [decide_eq_decide]; exact iff_of_false hob hoa)]
                refine ⟨by omega, fun h1 => ?_, fun _ => ?_⟩
                · have hadj := sortedBy_le laws hs ((minIndex + maxIndex) / 2 - 1)
                    ((minIndex + maxIndex) / 2) (by omega) hidxlen
                  rw [hteq] at hadj
                  exact hadj
                · rw [hteq, laws.refl0]
      · rw [if_neg hteq]
        by_cases hc0 : c target (items.getD ((minIndex + maxIndex) / 2) default) = 0
        · rw [if_pos hc0]
          refine ⟨by omega, fun h1 => ?_, fun _ => by omega⟩
          have hadj := sortedBy_le laws hs ((minIndex + maxIndex) / 2 - 1)
            ((minIndex + maxIndex) / 2) (by omega) hidxlen
          have hflip : c (items.getD ((minIndex + maxIndex) / 2) default) target ≤ 0 := by
            rw [laws.flipSign]
            omega
          exact laws.leTrans _ _ _ hadj hflip
        · rw [if_neg hc0]
          by_cases hcpos : c target (items.getD ((minIndex + maxIndex) / 2) default) > 0
          · rw [if_pos hcpos]
            refine ih ((minIndex + maxIndex) / 2 + 1) maxIndex (by omega) (by omega)
              hmax hlen ?_ P4 (by omega)
            intro j hj
            have hflip : c (items.getD ((minIndex + maxIndex) / 2) default) target < 0 := by
              rw [laws.flipSign]
              omega
            have hle := sortedBy_le laws hs j ((minIndex + maxIndex) / 2) (by omega) hidxlen
            exact le_of_lt (laws.ltOfLeOfLt _ _ _ hle hflip)
          · rw [if_neg hcpos]
            refine ih minIndex ((minIndex + maxIndex) / 2) (by omega) hmin (by omega)
              hlen P3 (Or.inr (by omega)) (by omega)
    · rw [if_neg hlt]
      rw [fiiPost]
      by_cases hpost : minIndex = items.length - 1 ∧
          c (items.getD (items.length - 1) default) target < 0
      · rw [if_pos hpost]
        exact ⟨le_refl _, fun _ => le_of_lt hpost.2, fun h => absurd h (lt_irrefl _)⟩
      · rw [if_neg hpost]
        refine ⟨by omega, fun h1 => P3 (minIndex - 1) (by omega), fun hlen2 => ?_⟩
        rcases Nat.lt_or_ge maxIndex minIndex with hgt | hge
        · rw [P5 hgt, laws.refl0]
        · have hminmax : minIndex = maxIndex := by omega
          rcases P4 with hP4 | hP4
          · have hm : minIndex = items.length - 1 := by omega
            rcases not_and_or.mp hpost with hbad | hok
            · exact absurd hm hbad
            · rw [hm, laws.flipSign]
              omega
          · rw [hminmax]
            exact hP4

/-- When the target is a member of the sorted list, strictly ordered against
each of its existing neighbours, the loop returns its current position. -/
theorem fiiLoop_member_strict [DecidableEq T] [Inhabited T] {c : T → T → Int}
    (laws : LawfulCmp c) {items : List T} (hs : SortedBy c items) (target : T)
    (p : Nat) (hp : p < items.length) (hpt : items.getD p default = target)
    (huniq : ∀ q, q < items.length → items.getD q default = target → q = p)
    (hlo : p = 0 ∨ c (items.getD (p - 1) default) target < 0)
    (hhi : p = items.length - 1 ∨ c target (items.getD (p + 1) default) < 0) :
    ∀ fuel minIndex maxIndex,
      maxIndex - minIndex < fuel →
      maxIndex ≤ items.length - 1 →
      minIndex ≤ p → p ≤ maxIndex →
      fiiLoop items target c fuel minIndex maxIndex = p := by
  intro fuel
  induction fuel with
  | zero => intro minIndex maxIndex hfuel; omega
  | succ fuel ih =>
    intro minIndex maxIndex hfuel hmax hminp hpmax
    rw [fiiLoop]
    by_cases hlt : minIndex < maxIndex
    · rw [if_pos hlt]
      have hidx1 : minIndex ≤ (minIndex + maxIndex) / 2 := by omega
      have hidx2 : (minIndex + maxIndex) / 2 ≤ maxIndex - 1 := by omega
      have hidxlen : (minIndex + maxIndex) / 2 < items.length := by omega
      by_cases hteq : items.getD ((minIndex + maxIndex) / 2) default = target
      · have hip : (minIndex + maxIndex) / 2 = p := huniq _ hidxlen hteq
        rw [if_pos hteq]
        by_cases hi0 : (minIndex + maxIndex) / 2 = 0
        · rw [if_pos hi0]
          omega
        · rw [if_neg hi0]
          by_cases hiLast : (minIndex + maxIndex) / 2 = items.length - 1
          · rw [if_pos hiLast]
            omega
          · rw [if_neg hiLast]
            rcases hlo with h0 | hob2
            · omega
            · rcases hhi with hL | hoa2
              · omega
              · have hob : c (items.getD ((minIndex + maxIndex) / 2 - 1) default) target
                    < 0 := by rw [hip]; exact hob2
                have hoa : c target (items.getD ((minIndex + maxIndex) / 2 + 1) default)
                    < 0 := by rw [hip]; exact hoa2
                rw [if_pos (by rw [decide_eq_decide]; exact iff_of_true hob hoa)]
                exact hip
      · rw [if_neg hteq]
        have hip : (minIndex + maxIndex) / 2 ≠ p := fun h => hteq (by rw [h, hpt])
        rcases Nat.lt_or_ge ((minIndex + maxIndex) / 2) p with hlt2 | hge2
        · rcases hlo with h0 | hob2
          · omega
          · have h1 : c (items.getD ((minIndex + maxIndex) / 2) default) target < 0 := by
              have hle := sortedBy_le laws hs ((minIndex + maxIndex) / 2) (p - 1)
                (by omega) (by omega)
              exact laws.ltOfLeOfLt _ _ _ hle hob2
            have hcpos : c target (items.getD ((minIndex + maxIndex) / 2) default) > 0 := by
              rw [laws.flipSign]
              omega
            rw [if_neg (by omega), if_pos hcpos]
            exact ih ((minIndex + maxIndex) / 2 + 1) maxIndex (by omega) hmax
              (by omega) hpmax
        · have hgt2 : p < (minIndex + maxIndex) / 2 := by omega
          rcases hhi with hL | hoa2
          · omega
          · have h1 : c target (items.getD ((minIndex + maxIndex) / 2) default) < 0 := by
              have hle := sortedBy_le laws hs (p + 1) ((minIndex + maxIndex) / 2)
                (by omega) hidxlen
              exact laws.ltOfLtOfLe _ _ _ hoa2 hle
            rw [if_neg (by omega), if_neg (by omega)]
            exact ih minIndex ((minIndex + maxIndex) / 2) (by omega) (by omega)
              hminp (by omega)
    · rw [if_neg hlt]
      have hmp : minIndex = p := by omega
      rw [fiiPost, if_neg ?hc]
      case hc =>
        rintro ⟨h1, h2⟩
        have hle : items.getD (items.length - 1) default = target := by
          have hq : items.length - 1 = p := by omega
          rw [hq, hpt]
        rw [hle, laws.refl0] at h2
        exact absurd h2 (lt_irrefl 0)
      exact hmp

/-- An element of a take prefix sits at an index below the cut. -/
theorem mem_getD_of_mem_take [Inhabited T] (l : List T) (k : Nat) (x : T)
    (hx : x ∈ l.take k) : ∃ r, r < l.length ∧ r < k ∧ l.getD r default = x := by
  rcases List.mem_iff_getElem.mp hx with ⟨r, hr, hget⟩
  rw [List.length_take] at hr
  refine ⟨r, by omega, by omega, ?_⟩
  rw [List.getD_eq_getElem l default (by omega), ← hget, List.getElem_take]

/-- An element of a drop suffix sits at an index at or beyond the cut. -/
theorem mem_getD_of_mem_drop [Inhabited T] (l : List T) (k : Nat) (y : T)
    (hy : y ∈ l.drop k) : ∃ r, r < l.length ∧ k ≤ r ∧ l.getD r default = y := by
  rcases List.mem_iff_getElem.mp hy with ⟨r, hr, hget⟩
  rw [List.length_drop] at hr
  refine ⟨k + r, by omega, by omega, ?_⟩
  rw [List.getD_eq_getElem l default (by omega), ← hget, List.getElem_drop]

/-- Elements taken before the insertion cut of an erased list come from
original positions at most the cut, reaching the cut itself only from beyond
the erased position. -/
theorem mem_take_eraseIdx [Inhabited T] (l : List T) (p a : Nat) (x : T)
    (hx : x ∈ (l.eraseIdx p).take a) :
    ∃ r, r < l.length ∧ l.getD r default = x ∧ r ≤ a ∧ (r = a → p < r) := by
  rw [List.eraseIdx_eq_take_drop_succ, List.take_append_eq_append_take] at hx
  rcases List.mem_append.mp hx with hx1 | hx2
  · rw [List.take_take] at hx1
    rcases mem_getD_of_mem_take l (a ⊓ p) x hx1 with ⟨r, hr1, hr2, hr3⟩
    exact ⟨r, hr1, hr3, by omega, by omega⟩
  · rcases mem_getD_of_mem_take (l.drop (p + 1)) _ x hx2 with ⟨r, hr1, hr2, hr3⟩
    rw [List.length_drop] at hr1
    rw [List.getD_eq_getElem _ default (by rw [List.length_drop]; omega),
      List.getElem_drop] at hr3
    rw [List.length_take] at hr2
    refine ⟨p + 1 + r, by omega, ?_, by omega, by omega⟩
    rw [List.getD_eq_getElem l default (by omega), ← hr3]

/-- Elements dropped after the insertion cut of an erased list come from
original positions at least the cut, the cut itself only from before the
erased position. -/
theorem mem_drop_eraseIdx [Inhabited T] (l : List T) (p a : Nat) (y : T)
    (hy : y ∈ (l.eraseIdx p).drop a) :
    ∃ r, r < l.length ∧ l.getD r default = y ∧ a ≤ r ∧ (r = a → r < p) := by
  rw [List.eraseIdx_eq_take_drop_succ, List.drop_append_eq_append_drop] at hy
  rcases List.mem_append.mp hy with hy1 | hy2
  · rcases mem_getD_of_mem_drop (l.take p) a y hy1 with ⟨r, hr1, hr2, hr3⟩
    rw [List.length_take] at hr1
    rw [List.getD_eq_getElem _ default (by rw [List.length_take]; omega),
      List.getElem_take] at hr3
    refine ⟨r, by omega, ?_, hr2, by omega⟩
    rw [List.getD_eq_getElem l default (by omega), ← hr3]
  · rcases mem_getD_of_mem_drop (l.drop (p + 1)) _ y hy2 with ⟨r, hr1, hr2, hr3⟩
    rw [List.length_drop] at hr1
    rw [List.getD_eq_getElem _ default (by rw [List.length_drop]; omega),
      List.getElem_drop] at hr3
    rw [List.length_take] at hr2
    refine ⟨p + 1 + r, by omega, ?_, by omega, by omega⟩
    rw [List.getD_eq_getElem l default (by omega), ← hr3]

/-- `insertIdx` within bounds is a take, the element, and a drop. -/
theorem insertIdx_eq_take_cons_drop (l : List T) (k : Nat) (t : T) (hk : k ≤ l.length) :
    l.insertIdx k t = l.take k ++ t :: l.drop k := by
  induction l generalizing k with
  | nil =>
    have : k = 0 := by simpa using hk
    subst this
    rfl
  | cons hd tl ih =>
    cases k with
    | zero => rfl
    | succ k2 =>
      rw [List.insertIdx_succ_cons, ih k2 (by simpa using hk)]
      rfl

/-- Inserting an element that fits between the two sides of the cut of a
sorted list keeps the list sorted. -/
theorem sortedBy_insertIdx [Inhabited T] {c : T → T → Int} (laws : LawfulCmp c)
    {l : List T} (hs : SortedBy c l) (t : T) (k : Nat) (hk : k ≤ l.length)
    (hlo : ∀ x ∈ l.take k, c x t ≤ 0) (hhi : ∀ y ∈ l.drop k, c t y ≤ 0) :
    SortedBy c (l.insertIdx k t) := by
  rw [insertIdx_eq_take_cons_drop l k t hk, SortedBy, List.pairwise_append]
  refine ⟨List.Pairwise.sublist (List.take_sublist k l) hs, ?_, ?_⟩
  · rw [List.pairwise_cons]
    exact ⟨fun y hy => hhi y hy, List.Pairwise.sublist (List.drop_sublist k l) hs⟩
  · intro x hx b hb
    rcases List.mem_cons.mp hb with rfl | hb2
    · exact hlo x hx
    · exact laws.leTrans _ _ _ (hlo x hx) (hhi b hb2)

/-- Postcondition of `findInsertionIndex` on a sorted list: the returned
index is within bounds and the target fits between its neighbours. -/
theorem findInsertionIndex_post [DecidableEq T] [Inhabited T] {c : T → T → Int}
    (laws : LawfulCmp c) {items : List T} (hs : SortedBy c items) (target : T) :
    findInsertionIndex items target c ≤ items.length ∧
    (1 ≤ findInsertionIndex items target c →
      c (items.getD (findInsertionIndex items target c - 1) default) target ≤ 0) ∧
    (findInsertionIndex items target c < items.length →
      c target (items.getD (findInsertionIndex items target c) default) ≤ 0) := by
  rw [findInsertionIndex]
  by_cases h0 : items.length = 0
  · rw [if_pos h0]
    exact ⟨by omega, fun h => absurd h (by omega), fun h => absurd h (by omega)⟩
  · rw [if_neg h0]
    exact fiiLoop_post laws hs target items.length 0 (items.length - 1) (by omega)
      (by omega) (by omega) (by omega) (fun j hj => absurd hj (by omega))
      (Or.inl rfl) (by omega)

/-- Removing the element at any position of a sorted list and reinserting the
target at the returned index, shifted down by one when the removal sits below
it, yields a sorted list. -/
theorem c2_reinsert_sorted [DecidableEq T] [Inhabited T] {c : T → T → Int}
    (laws : LawfulCmp c) {items : List T} (hs : SortedBy c items) (target : T)
    (p : Nat) (hple : p ≤ items.length) :
    SortedBy c ((items.eraseIdx p).insertIdx
      (if p < findInsertionIndex items target c then findInsertionIndex items target c - 1
       else findInsertionIndex items target c) target) := by
  rcases findInsertionIndex_post laws hs target with ⟨hi1, hi2, hi3⟩
  refine sortedBy_insertIdx laws
    (List.Pairwise.sublist (List.eraseIdx_sublist items p) hs) target _ ?_ ?_ ?_
  · rw [List.length_eraseIdx]
    split_ifs with hcut hplen hplen <;> omega
  · intro x hx
    rcases mem_take_eraseIdx items p _ x hx with ⟨r, hr1, hr2, hr3, hr4⟩
    have hri : r < findInsertionIndex items target c := by
      split_ifs at hr3 hr4 with hpi <;> omega
    show c x target ≤ 0
    rw [← hr2]
    have hle := sortedBy_le laws hs r (findInsertionIndex items target c - 1)
      (by omega) (by omega)
    exact laws.leTrans _ _ _ hle (hi2 (by omega))
  · intro y hy
    rcases mem_drop_eraseIdx items p _ y hy with ⟨r, hr1, hr2, hr3, hr4⟩
    have hri : findInsertionIndex items target c ≤ r := by
      split_ifs at hr3 hr4 with hpi <;> omega
    show c target y ≤ 0
    rw [← hr2]
    have hle := sortedBy_le laws hs (findInsertionIndex items target c) r hri hr1
    exact laws.leTrans _ _ _ (hi3 (by omega)) hle

/-- A comparator on id-keyed integer items comparing only the key, as the
sort view builds from a numeric column: ties between distinct items are
possible. -/
def keyCmp (a b : Nat × Int) : Int :=
  if a.2 < b.2 then -1 else if b.2 < a.2 then 1 else 0

/-- `keyCmp` satisfies the comparator contract. -/
theorem keyCmp_lawful : LawfulCmp keyCmp := by
  constructor
  · intro a
    simp only [keyCmp]
    split_ifs <;> omega
  · intro a b
    simp only [keyCmp]
    split_ifs <;> omega
  · intro a b d h1 h2
    simp only [keyCmp] at h1 h2 ⊢
    split_ifs at h1 h2 ⊢ <;> omega
  · intro a b d h1 h2
    simp only [keyCmp] at h1 h2 ⊢
    split_ifs at h1 h2 ⊢ <;> omega
  · intro a b d h1 h2
    simp only [keyCmp] at h1 h2 ⊢
    split_ifs at h1 h2 ⊢ <;> omega

/-- C2 counterexample: two items with equal sort keys (the comparator ties),
the target being the second; the list is sorted and the target is a member
already correctly ordered against its neighbour, yet `findInsertionIndex`
returns 0, not the target's current position 1, contrary to the claim's final
clause. -/
theorem c2_tie_returns_other_position :
    SortedBy keyCmp [((0 : Nat), (0 : Int)), (1, 0)] ∧
    [((0 : Nat), (0 : Int)), (1, 0)].getD 1 default = (1, 0) ∧
    keyCmp ([((0 : Nat), (0 : Int)), (1, 0)].getD 0 default) (1, 0) ≤ 0 ∧
    findInsertionIndex [((0 : Nat), (0 : Int)), (1, 0)] (1, 0) keyCmp = 0 := by
  refine ⟨?_, ?_, ?_, ?_⟩ <;> decide

/-- C2 (amended): on a sorted list, `findInsertionIndex` returns an index
within `[0, length]` at which inserting the target preserves sortedness, and
such that removing any one element and reinserting the target at the index
(shifted down by one when the removed position lies below it, as the sort
view does) also preserves sortedness; and when the target is a member that
compares strictly against each of its existing neighbours, the returned index
is its current position — with ties, however, the search may return a
different index of the tied run, so the claim's unqualified current-position
clause does not hold. -/
theorem c2_findInsertionIndex_correct [DecidableEq T] [Inhabited T] (items : List T)
    (target : T) (c : T → T → Int) (laws : LawfulCmp c) (hs : SortedBy c items) :
    findInsertionIndex items target c ≤ items.length ∧
    SortedBy c (items.insertIdx (findInsertionIndex items target c) target) ∧
    (∀ p, p ≤ items.length →
      SortedBy c ((items.eraseIdx p).insertIdx
        (if p < findInsertionIndex items target c then
          findInsertionIndex items target c - 1
         else findInsertionIndex items target c) target)) ∧
    (∀ p, p < items.length → items.getD p default = target →
      (∀ q, q < items.length → items.getD q default = target → q = p) →
      (p = 0 ∨ c (items.getD (p - 1) default) target < 0) →
      (p = items.length - 1 ∨ c target (items.getD (p + 1) default) < 0) →
      findInsertionIndex items target c = p) := by
  rcases findInsertionIndex_post laws hs target with ⟨hi1, hi2, hi3⟩
  refine ⟨hi1, ?_, fun p hple => c2_reinsert_sorted laws hs target p hple, ?_⟩
  · have h := c2_reinsert_sorted laws hs target items.length (le_refl _)
    rw [List.eraseIdx_of_length_le (le_refl _), if_neg (by omega)] at h
    exact h
  · intro p hp hpt huniq hlo hhi
    rw [findInsertionIndex, if_neg (by omega)]
    exact fiiLoop_member_strict laws hs target p hp hpt huniq hlo hhi items.length 0
      (items.length - 1) (by omega) (by omega) (by omega) (by omega)

/-- C2 witness: the amended theorem applied to a concrete sorted list — a
non-member target lands at an order-preserving index, and a member target
with strict neighbours is located at its current position. -/
theorem c2_findInsertionIndex_correct_witness :
    SortedBy keyCmp [((0 : Nat), (1 : Int)), (1, 3), (2, 5)] ∧
    SortedBy keyCmp ([((0 : Nat), (1 : Int)), (1, 3), (2, 5)].insertIdx
      (findInsertionIndex [((0 : Nat), (1 : Int)), (1, 3), (2, 5)] (9, 4) keyCmp)
      (9, 4)) ∧
    findInsertionIndex [((0 : Nat), (1 : Int)), (1, 3), (2, 5)] (1, 3) keyCmp = 1 := by
  refine ⟨by decide, ?_, ?_⟩
  · exact (c2_findInsertionIndex_correct _ (9, 4) keyCmp keyCmp_lawful (by decide)).2.1
  · exact (c2_findInsertionIndex_correct _ (1, 3) keyCmp keyCmp_lawful
      (by decide)).2.2.2 1 (by decide) (by decide) (by decide) (by decide) (by decide)

/-! ## C1: filter view invariant -/

/-- `splice(indexOf(a), 1)` on a list containing `a` removes exactly the
first occurrence of `a`. -/
theorem jsSplice_indexOf_erase [DecidableEq T] (l : List T) (a : T) (ha : a ∈ l) :
    jsSpliceRemoveOne l (jsIndexOf l a) = l.erase a := by
  induction l with
  | nil => exact absurd ha (List.not_mem_nil a)
  | cons hd tl ih =>
    by_cases hda : hd = a
    · subst hda
      rw [jsIndexOf, List.indexOf?_cons]
      simp only [beq_self_eq_true, if_true]
      rw [List.erase_cons_head]
      rfl
    · have hmem : a ∈ tl := by
        rcases List.mem_cons.mp ha with h | h
        · exact absurd h.symm hda
        · exact h
      have hsome : ∃ j, List.indexOf? a tl = some j := by
        rcases h : List.indexOf? a tl with _ | j
        · exfalso
          have hcon := List.indexOf?_eq_none_iff.mp h a hmem
          simp at hcon
        · exact ⟨j, rfl⟩
      rcases hsome with ⟨j, hj⟩
      have hbeq : (hd == a) = false := beq_eq_false_iff_ne.mpr hda
      have hidx : jsIndexOf (hd :: tl) a = (j : Int) + 1 := by
        rw [jsIndexOf, List.indexOf?_cons, hbeq]
        simp [hj]
      have hih := ih hmem
      rw [jsIndexOf, hj] at hih
      have hihn : tl.eraseIdx j = tl.erase a := by
        rw [jsSpliceRemoveOne, if_neg (by omega : ¬(j : Int) < 0)] at hih
        simpa using hih
      rw [hidx, jsSpliceRemoveOne, if_neg (by omega : ¬(j : Int) + 1 < 0)]
      have h3 : ((j : Int) + 1).toNat = j + 1 := by omega
      rw [h3, List.eraseIdx_cons_succ, hihn, List.erase_cons_tail (by simpa using hda)]

/-- Ids of a filtered sublist are ids of the list. -/
theorem mem_map_fst_filter {p : FItem ι V → Bool} {u : List (FItem ι V)} {k : ι}
    (h : k ∈ (u.filter p).map Prod.fst) : k ∈ u.map Prod.fst := by
  rcases List.mem_map.mp h with ⟨it, hit, rfl⟩
  exact List.mem_map_of_mem Prod.fst (List.mem_of_mem_filter hit)

/-- The filter-pipeline invariant: upstream identifiers are unique, the cache
holds the current passes flag of every upstream item, and the visible
sequence is a duplicate-free permutation of the ids of exactly the upstream
items passing the current predicate. -/
structure FilterInv [DecidableEq ι] (s : FilterSys ι V) : Prop where
  unodup : (s.upstream.map Prod.fst).Nodup
  cacheOk : ∀ it ∈ s.upstream,
    s.view.itemFilterState it.1 = some (passesItem s.view.predicate it)
  perm : s.view.items.Perm
    ((s.upstream.filter fun it => passesItem s.view.predicate it).map Prod.fst)
  vnodup : s.view.items.Nodup

/-- The filter view state after handling an upstream `Insert` record: the
computed flag is cached, and a passing item is appended to the visible tail. -/
theorem onSourceChanged_insert_view [DecidableEq ι] (fv : FilterView ι V)
    (uA : List (FItem ι V)) (id : ι) (v : V) (idx : Int) (flag : Bool) :
    (fv.onSourceChanged uA (CollectionChange.insert (id, v) id idx flag)).1 =
      if passesItem fv.predicate (id, v) then
        { fv with
            itemFilterState := cacheSet fv.itemFilterState id
              (passesItem fv.predicate (id, v)),
            items := fv.items ++ [id] }
      else
        { fv with
            itemFilterState := cacheSet fv.itemFilterState id
              (passesItem fv.predicate (id, v)) } := by
  rw [FilterView.onSourceChanged]
  dsimp only [CollectionChange.insert]
  by_cases hp : passesItem fv.predicate (id, v)
  · rw [if_pos (show passesOpt fv.predicate (some (id, v)) = true from hp), if_pos hp]
    rfl
  · rw [if_neg (show ¬passesOpt fv.predicate (some (id, v)) = true from hp), if_neg hp]
    rfl

/-- The insert step preserves the filter invariant. -/
theorem filterInv_insert [DecidableEq ι] [Inhabited ι] [Inhabited V] (s : FilterSys ι V)
    (inv : FilterInv s) (id : ι) (v : V) (hid : id ∉ s.upstream.map Prod.fst) :
    FilterInv (filterStep s (SourceOp.insertItem id v)) := by
  have hup : (filterStep s (SourceOp.insertItem id v)).upstream =
      s.upstream ++ [(id, v)] := rfl
  have hview : (filterStep s (SourceOp.insertItem id v)).view =
      (s.view.onSourceChanged (s.upstream ++ [(id, v)])
        (CollectionChange.insert ((id, v)) id (s.upstream.length : Int) true)).1 := rfl
  have hidne : ∀ it ∈ s.upstream, it.1 ≠ id := fun it hit h =>
    hid (h ▸ List.mem_map_of_mem Prod.fst hit)
  have hidnotvis : id ∉ s.view.items := fun h =>
    hid (mem_map_fst_filter ((inv.perm.mem_iff).mp h))
  have hunodup : ((s.upstream ++ [(id, v)]).map Prod.fst).Nodup := by
    rw [List.map_append]
    simp only [List.map_cons, List.map_nil]
    rw [List.nodup_append]
    refine ⟨inv.unodup, List.nodup_singleton id, ?_⟩
    intro a ha hb
    have hb2 : a = id := by simpa using hb
    subst hb2
    exact hid ha
  refine ⟨by rw [hup]; exact hunodup, ?_, ?_, ?_⟩
  · rw [hup, hview, onSourceChanged_insert_view]
    by_cases hp : passesItem s.view.predicate (id, v) <;>
      [rw [if_pos hp]; rw [if_neg hp]] <;>
    · intro it hit
      rcases List.mem_append.mp hit with h | h
      · simpa [cacheSet, hidne it h] using inv.cacheOk it h
      · have he : it = (id, v) := by simpa using h
        subst he
        simp [cacheSet]
  · rw [hup, hview, onSourceChanged_insert_view]
    by_cases hp : passesItem s.view.predicate (id, v)
    · rw [if_pos hp]
      show (s.view.items ++ [id]).Perm _
      rw [List.filter_append, List.map_append]
      simp only [List.filter_cons, hp, List.filter_nil, List.map_cons, List.map_nil]
      exact inv.perm.append_right [id]
    · rw [if_neg hp]
      show s.view.items.Perm _
      rw [List.filter_append, List.map_append]
      simp only [List.filter_cons, hp, Bool.false_eq_true, if_false, List.filter_nil,
        List.map_nil, List.append_nil]
      exact inv.perm
  · rw [hview, onSourceChanged_insert_view]
    by_cases hp : passesItem s.view.predicate (id, v)
    · rw [if_pos hp]
      show (s.view.items ++ [id]).Nodup
      rw [List.nodup_append]
      refine ⟨inv.vnodup, List.nodup_singleton id, ?_⟩
      intro a ha hb
      have hb2 : a = id := by simpa using hb
      subst hb2
      exact hidnotvis ha
    · rw [if_neg hp]
      exact inv.vnodup

/-- The filter view state after handling an upstream `Remove` record: nothing
when the removed item fails the current predicate; otherwise the cache entry
is deleted and the id spliced out of the visible sequence. -/
theorem onSourceChanged_remove_view [DecidableEq ι] (fv : FilterView ι V)
    (uA : List (FItem ι V)) (it : FItem ι V) (id : ι) (idx : Int) :
    (fv.onSourceChanged uA (CollectionChange.remove it id idx)).1 =
      if passesItem fv.predicate it then
        { fv with
            itemFilterState := cacheDelete fv.itemFilterState id,
            items := jsSpliceRemoveOne fv.items (jsIndexOf fv.items id) }
      else fv := by
  rw [FilterView.onSourceChanged]
  dsimp only [CollectionChange.remove]
  by_cases hp : passesItem fv.predicate it
  · have hps : passesOpt fv.predicate (some it) = true := hp
    rw [if_neg (by simp [hps]), if_pos hp]
    rw [FilterView.removeVisible]
  · have hps : passesOpt fv.predicate (some it) = false := by
      simpa using hp
    rw [if_pos (by simp [hps]), if_neg hp]

/-- The removal step preserves the filter invariant. -/
theorem filterInv_removeAt [DecidableEq ι] [Inhabited ι] [Inhabited V] (s : FilterSys ι V)
    (inv : FilterInv s) (idx : Nat) (hidx : idx < s.upstream.length) :
    FilterInv (filterStep s (SourceOp.removeAt idx)) := by
  have hdecomp : s.upstream =
      s.upstream.take idx ++ s.upstream.getD idx default :: s.upstream.drop (idx + 1) := by
    conv_lhs => rw [← List.take_append_drop idx s.upstream]
    rw [List.drop_eq_getElem_cons hidx, List.getD_eq_getElem s.upstream default hidx]
  have herase : s.upstream.eraseIdx idx =
      s.upstream.take idx ++ s.upstream.drop (idx + 1) :=
    List.eraseIdx_eq_take_drop_succ s.upstream idx
  have hmapsplit : s.upstream.map Prod.fst =
      (s.upstream.take idx).map Prod.fst ++ (s.upstream.getD idx default).1 ::
        (s.upstream.drop (idx + 1)).map Prod.fst := by
    conv_lhs => rw [hdecomp]
    simp
  have hnods := inv.unodup
  rw [hmapsplit, List.nodup_append] at hnods
  have hidA : (s.upstream.getD idx default).1 ∉ (s.upstream.take idx).map Prod.fst := by
    intro h
    exact hnods.2.2 h (List.mem_cons_self _ _)
  have hidB : (s.upstream.getD idx default).1 ∉
      (s.upstream.drop (idx + 1)).map Prod.fst := by
    have h2 := hnods.2.1
    rw [List.nodup_cons] at h2
    exact h2.1
  have hne : ∀ it ∈ s.upstream.eraseIdx idx, it.1 ≠ (s.upstream.getD idx default).1 := by
    intro it hit h
    rw [herase] at hit
    rcases List.mem_append.mp hit with hm | hm
    · exact hidA (h ▸ List.mem_map_of_mem Prod.fst hm)
    · exact hidB (h ▸ List.mem_map_of_mem Prod.fst hm)
  have hsub : (s.upstream.eraseIdx idx).Sublist s.upstream :=
    List.eraseIdx_sublist s.upstream idx
  have hunodup : ((s.upstream.eraseIdx idx).map Prod.fst).Nodup :=
    List.Nodup.sublist (List.Sublist.map Prod.fst hsub) inv.unodup
  have hfiltersplit : ((s.upstream.filter fun it =>
      passesItem s.view.predicate it).map Prod.fst) =
      (((s.upstream.take idx).filter fun it => passesItem s.view.predicate it).map
        Prod.fst) ++
      (((s.upstream.getD idx default :: s.upstream.drop (idx + 1)).filter fun it =>
        passesItem s.view.predicate it).map Prod.fst) := by
    conv_lhs => rw [hdecomp]
    rw [List.filter_append, List.map_append]
  have hstate : filterStep s (SourceOp.removeAt idx) =
      ⟨s.upstream.eraseIdx idx,
        (s.view.onSourceChanged (s.upstream.eraseIdx idx)
          (CollectionChange.remove (s.upstream.getD idx default)
            (s.upstream.getD idx default).1 (idx : Int))).1⟩ := rfl
  rw [hstate, onSourceChanged_remove_view]
  by_cases hp : passesItem s.view.predicate (s.upstream.getD idx default)
  · rw [if_pos hp]
    have hmemvis : (s.upstream.getD idx default).1 ∈ s.view.items := by
      rw [inv.perm.mem_iff]
      refine List.mem_map_of_mem Prod.fst (List.mem_filter.mpr ⟨?_, hp⟩)
      rw [List.getD_eq_getElem s.upstream default hidx]
      exact List.getElem_mem hidx
    refine ⟨hunodup, ?_, ?_, ?_⟩
    · intro it hit
      have hnei : it.1 ≠ (s.upstream.getD idx default).1 := hne it hit
      show cacheDelete s.view.itemFilterState (s.upstream.getD idx default).1 it.1 = _
      simp only [cacheDelete, hnei, if_false]
      exact inv.cacheOk it (List.Sublist.mem hit hsub)
    · show (jsSpliceRemoveOne s.view.items
        (jsIndexOf s.view.items (s.upstream.getD idx default).1)).Perm _
      rw [jsSplice_indexOf_erase s.view.items _ hmemvis]
      have hperm2 := inv.perm.erase (s.upstream.getD idx default).1
      rw [hfiltersplit, List.filter_cons_of_pos hp, List.map_cons,
        List.erase_append_right _ (fun h => hidA (mem_map_fst_filter h)),
        List.erase_cons_head] at hperm2
      rw [herase, List.filter_append, List.map_append]
      exact hperm2
    · show (jsSpliceRemoveOne s.view.items
        (jsIndexOf s.view.items (s.upstream.getD idx default).1)).Nodup
      rw [jsSplice_indexOf_erase s.view.items _ hmemvis]
      exact List.Nodup.erase _ inv.vnodup
  · rw [if_neg hp]
    refine ⟨hunodup, ?_, ?_, inv.vnodup⟩
    · intro it hit
      exact inv.cacheOk it (List.Sublist.mem hit hsub)
    · show s.view.items.Perm _
      have heq : ((s.upstream.eraseIdx idx).filter fun it =>
          passesItem s.view.predicate it).map Prod.fst =
          ((s.upstream.filter fun it => passesItem s.view.predicate it).map Prod.fst) := by
        rw [hfiltersplit, herase, List.filter_append, List.map_append,
          List.filter_cons_of_neg (by simpa using hp)]
      rw [heq]
      exact inv.perm

/-- The filter view state after handling an upstream `Update` record: a cache
hit leaves the view unchanged; a flipped flag is re-cached and the id is
spliced out of (true to false) or appended to (false to true) the visible
sequence. -/
theorem onSourceChanged_update_view [DecidableEq ι] (fv : FilterView ι V)
    (uA : List (FItem ι V)) (it : FItem ι V) (id : ι) (idx : Int) :
    (fv.onSourceChanged uA (CollectionChange.update it id idx)).1 =
      if fv.itemFilterState id = some (passesItem fv.predicate it) then fv
      else if fv.itemFilterState id = some true then
        { fv with
            itemFilterState := cacheSet fv.itemFilterState id (passesItem fv.predicate it),
            items := jsSpliceRemoveOne fv.items (jsIndexOf fv.items id) }
      else
        { fv with
            itemFilterState := cacheSet fv.itemFilterState id (passesItem fv.predicate it),
            items := fv.items ++ [id] } := by
  rw [FilterView.onSourceChanged]
  dsimp only [CollectionChange.update]
  have hpo : passesOpt fv.predicate (some it) = passesItem fv.predicate it := by
    cases fv.predicate <;> rfl
  rw [hpo]
  by_cases h1 : fv.itemFilterState id = some (passesItem fv.predicate it)
  · rw [if_pos h1, if_pos h1]
    by_cases h2 : fv.itemFilterState id = some true
    · rw [if_pos h2]
    · rw [if_neg h2]
  · rw [if_neg h1, if_neg h1]
    by_cases h2 : fv.itemFilterState id = some true
    · rw [if_pos h2, if_pos h2]
      rfl
    · rw [if_neg h2, if_neg h2]
      rfl

/-- The update step preserves the filter invariant. -/
theorem filterInv_update [DecidableEq ι] [Inhabited ι] [Inhabited V] (s : FilterSys ι V)
    (inv : FilterInv s) (id : ι) (v : V) (hmem : id ∈ s.upstream.map Prod.fst) :
    FilterInv (filterStep s (SourceOp.updateItem id v)) := by
  rcases List.mem_map.mp hmem with ⟨old, holdmem, holdfst⟩
  rcases List.append_of_mem holdmem with ⟨l₁, l₂, hdecomp⟩
  have hmapsplit : s.upstream.map Prod.fst =
      l₁.map Prod.fst ++ id :: l₂.map Prod.fst := by
    rw [hdecomp, List.map_append, List.map_cons, holdfst]
  have hnods := inv.unodup
  rw [hmapsplit, List.nodup_append] at hnods
  have hidA : id ∉ l₁.map Prod.fst := fun h => hnods.2.2 h (List.mem_cons_self _ _)
  have hidB : id ∉ l₂.map Prod.fst := by
    have h2 := hnods.2.1
    rw [List.nodup_cons] at h2
    exact h2.1
  have hl1ne : ∀ it ∈ l₁, it.1 ≠ id := fun it hit h =>
    hidA (h ▸ List.mem_map_of_mem Prod.fst hit)
  have hl2ne : ∀ it ∈ l₂, it.1 ≠ id := fun it hit h =>
    hidB (h ▸ List.mem_map_of_mem Prod.fst hit)
  have hu' : s.upstream.map (fun it => if it.1 = id then ((id, v) : FItem ι V) else it) =
      l₁ ++ (id, v) :: l₂ := by
    rw [hdecomp, List.map_append, List.map_cons]
    congr 1
    · exact (List.map_congr_left fun a ha => if_neg (hl1ne a ha)).trans (List.map_id l₁)
    congr 1
    · exact if_pos holdfst
    · exact (List.map_congr_left fun a ha => if_neg (hl2ne a ha)).trans (List.map_id l₂)
  have hfsteq : (l₁ ++ ((id, v) : FItem ι V) :: l₂).map Prod.fst =
      s.upstream.map Prod.fst := by
    rw [hmapsplit, List.map_append, List.map_cons]
  have hcacheold : s.view.itemFilterState id = some (passesItem s.view.predicate old) := by
    have h := inv.cacheOk old holdmem
    rwa [holdfst] at h
  have hmemu : ∀ it : FItem ι V, it ∈ l₁ ∨ it ∈ l₂ → it ∈ s.upstream := by
    intro it h
    rw [hdecomp]
    rcases h with h | h
    · exact List.mem_append.mpr (Or.inl h)
    · exact List.mem_append.mpr (Or.inr (List.mem_cons_of_mem _ h))
  have hstate : filterStep s (SourceOp.updateItem id v) =
      ⟨s.upstream.map (fun it => if it.1 = id then ((id, v) : FItem ι V) else it),
        (s.view.onSourceChanged
          (s.upstream.map (fun it => if it.1 = id then ((id, v) : FItem ι V) else it))
          (CollectionChange.update ((id, v) : FItem ι V) id
            (jsIndexOf (s.upstream.map Prod.fst) id))).1⟩ := rfl
  rw [hstate, hu', onSourceChanged_update_view]
  by_cases heq : passesItem s.view.predicate old =
      passesItem s.view.predicate ((id, v) : FItem ι V)
  · have h1 : s.view.itemFilterState id =
        some (passesItem s.view.predicate ((id, v) : FItem ι V)) := by
      rw [hcacheold, heq]
    rw [if_pos h1]
    have hfiltereq : ((l₁ ++ ((id, v) : FItem ι V) :: l₂).filter fun it =>
        passesItem s.view.predicate it).map Prod.fst =
        (s.upstream.filter fun it => passesItem s.view.predicate it).map Prod.fst := by
      rw [hdecomp, List.filter_append, List.filter_append, List.map_append, List.map_append]
      congr 1
      simp only [List.filter_cons]
      rw [← heq]
      by_cases hp : passesItem s.view.predicate old = true
      · rw [if_pos hp, if_pos hp]
        simp [holdfst]
      · rw [if_neg hp, if_neg hp]
    refine ⟨?_, ?_, ?_, inv.vnodup⟩
    · show ((l₁ ++ ((id, v) : FItem ι V) :: l₂).map Prod.fst).Nodup
      rw [hfsteq]
      exact inv.unodup
    · intro it hit
      show s.view.itemFilterState it.1 = some (passesItem s.view.predicate it)
      rcases List.mem_append.mp hit with h | h
      · exact inv.cacheOk it (hmemu it (Or.inl h))
      · rcases List.mem_cons.mp h with h | h
        · subst h
          exact h1
        · exact inv.cacheOk it (hmemu it (Or.inr h))
    · show s.view.items.Perm _
      rw [hfiltereq]
      exact inv.perm
  · have h1 : ¬ s.view.itemFilterState id =
        some (passesItem s.view.predicate ((id, v) : FItem ι V)) := by
      rw [hcacheold]
      intro h
      exact heq (Option.some.inj h)
    rw [if_neg h1]
    by_cases hpold : passesItem s.view.predicate old = true
    · have hpnew : passesItem s.view.predicate ((id, v) : FItem ι V) = false := by
        cases hx : passesItem s.view.predicate ((id, v) : FItem ι V)
        · rfl
        · exact absurd (hpold.trans hx.symm) heq
      have h2 : s.view.itemFilterState id = some true := by
        rw [hcacheold, hpold]
      rw [if_pos h2]
      have hmemvis : id ∈ s.view.items := by
        rw [inv.perm.mem_iff]
        exact holdfst ▸
          List.mem_map_of_mem Prod.fst (List.mem_filter.mpr ⟨holdmem, hpold⟩)
      refine ⟨?_, ?_, ?_, ?_⟩
      · show ((l₁ ++ ((id, v) : FItem ι V) :: l₂).map Prod.fst).Nodup
        rw [hfsteq]
        exact inv.unodup
      · intro it hit
        show cacheSet s.view.itemFilterState id
            (passesItem s.view.predicate ((id, v) : FItem ι V)) it.1 =
          some (passesItem s.view.predicate it)
        rcases List.mem_append.mp hit with h | h
        · simp only [cacheSet, hl1ne it h, if_false]
          exact inv.cacheOk it (hmemu it (Or.inl h))
        · rcases List.mem_cons.mp h with h | h
          · subst h
            simp [cacheSet]
          · simp only [cacheSet, hl2ne it h, if_false]
            exact inv.cacheOk it (hmemu it (Or.inr h))
      · show (jsSpliceRemoveOne s.view.items (jsIndexOf s.view.items id)).Perm _
        rw [jsSplice_indexOf_erase s.view.items id hmemvis]
        have hperm2 := inv.perm.erase id
        rw [hdecomp, List.filter_append, List.map_append,
          List.filter_cons_of_pos hpold, List.map_cons, holdfst,
          List.erase_append_right _ (fun h => hidA (mem_map_fst_filter h)),
          List.erase_cons_head] at hperm2
        rw [List.filter_append, List.map_append,
          List.filter_cons_of_neg (by simp [hpnew])]
        exact hperm2
      · show (jsSpliceRemoveOne s.view.items (jsIndexOf s.view.items id)).Nodup
        rw [jsSplice_indexOf_erase s.view.items id hmemvis]
        exact List.Nodup.erase _ inv.vnodup
    · have hpoldf : passesItem s.view.predicate old = false := by
        cases hx : passesItem s.view.predicate old
        · rfl
        · exact absurd hx hpold
      have hpnew : passesItem s.view.predicate ((id, v) : FItem ι V) = true := by
        cases hx : passesItem s.view.predicate ((id, v) : FItem ι V)
        · exact absurd (hpoldf.trans hx.symm) heq
        · rfl
      have h2 : ¬ s.view.itemFilterState id = some true := by
        rw [hcacheold, hpoldf]
        simp
      rw [if_neg h2]
      have hidnotvis : id ∉ s.view.items := by
        rw [inv.perm.mem_iff]
        intro h
        rw [hdecomp, List.filter_append, List.map_append] at h
        rcases List.mem_append.mp h with h | h
        · exact hidA (mem_map_fst_filter h)
        · rw [List.filter_cons_of_neg (by simp [hpoldf])] at h
          exact hidB (mem_map_fst_filter h)
      refine ⟨?_, ?_, ?_, ?_⟩
      · show ((l₁ ++ ((id, v) : FItem ι V) :: l₂).map Prod.fst).Nodup
        rw [hfsteq]
        exact inv.unodup
      · intro it hit
        show cacheSet s.view.itemFilterState id
            (passesItem s.view.predicate ((id, v) : FItem ι V)) it.1 =
          some (passesItem s.view.predicate it)
        rcases List.mem_append.mp hit with h | h
        · simp only [cacheSet, hl1ne it h, if_false]
          exact inv.cacheOk it (hmemu it (Or.inl h))
        · rcases List.mem_cons.mp h with h | h
          · subst h
            simp [cacheSet]
          · simp only [cacheSet, hl2ne it h, if_false]
            exact inv.cacheOk it (hmemu it (Or.inr h))
      · show (s.view.items ++ [id]).Perm _
        have hperm0 := inv.perm
        rw [hdecomp, List.filter_append, List.map_append,
          List.filter_cons_of_neg (by simp [hpoldf])] at hperm0
        rw [List.filter_append, List.map_append,
          List.filter_cons_of_pos hpnew, List.map_cons]
        refine (hperm0.append_right [id]).trans ?_
        rw [List.append_assoc]
        refine List.Perm.append_left _ ?_
        exact List.perm_append_comm
      · show (s.view.items ++ [id]).Nodup
        rw [List.nodup_append]
        refine ⟨inv.vnodup, List.nodup_singleton id, ?_⟩
        intro a ha hb
        have hb2 : a = id := by simpa using hb
        subst hb2
        exact hidnotvis ha

/-- The collected ids of the `Reset` rebuild loop are the traversed items
passing the predicate, in traversal order, after the accumulator. -/
theorem filterRebuild_items [DecidableEq ι] (p : FItem ι V → Bool)
    (u : List (FItem ι V)) :
    ∀ acc cache, (filterRebuild p u (acc, cache)).1 = acc ++ (u.filter p).map Prod.fst := by
  induction u with
  | nil => intro acc cache; simp [filterRebuild]
  | cons hd rest ih =>
    intro acc cache
    rw [filterRebuild]
    split_ifs <;> simp [List.filter_cons, ih, *]

/-- The `Reset` rebuild loop leaves cache keys outside the traversed items
untouched. -/
theorem filterRebuild_cache_frozen [DecidableEq ι] (p : FItem ι V → Bool)
    (u : List (FItem ι V)) (k : ι) (hk : k ∉ u.map Prod.fst) :
    ∀ acc cache, (filterRebuild p u (acc, cache)).2 k = cache k := by
  induction u with
  | nil => intro acc cache; rfl
  | cons hd rest ih =>
    intro acc cache
    have hne : k ≠ hd.1 := fun h => hk (by simp [h])
    have hk2 : k ∉ rest.map Prod.fst := fun h => hk (by simp [h])
    rw [filterRebuild]
    split_ifs <;> rw [ih hk2] <;> simp [cacheSet, hne]

/-- After the `Reset` rebuild loop, the cache maps every traversed item to its
freshly computed flag (identifiers being unique). -/
theorem filterRebuild_cache [DecidableEq ι] (p : FItem ι V → Bool)
    (u : List (FItem ι V)) (hnodup : (u.map Prod.fst).Nodup) :
    ∀ acc cache, ∀ it ∈ u, (filterRebuild p u (acc, cache)).2 it.1 = some (p it) := by
  induction u with
  | nil => intro acc cache it hit; exact absurd hit (List.not_mem_nil it)
  | cons hd rest ih =>
    intro acc cache it hit
    have hnd1 : hd.1 ∉ rest.map Prod.fst := (List.nodup_cons.mp hnodup).1
    have hnd2 : (rest.map Prod.fst).Nodup := (List.nodup_cons.mp hnodup).2
    rcases List.mem_cons.mp hit with rfl | hmem
    · rw [filterRebuild]
      split_ifs <;> rw [filterRebuild_cache_frozen p rest it.1 hnd1] <;> simp [cacheSet]
    · rw [filterRebuild]
      split_ifs <;> exact ih hnd2 _ _ it hmem

/-- The predicate-free `Reset` cache loop leaves keys outside the traversed
items untouched. -/
theorem filterRebuildAllTrue_frozen [DecidableEq ι] (u : List (FItem ι V)) (k : ι)
    (hk : k ∉ u.map Prod.fst) :
    ∀ cache, filterRebuildAllTrue u cache k = cache k := by
  induction u with
  | nil => intro cache; rfl
  | cons hd rest ih =>
    intro cache
    have hne : k ≠ hd.1 := fun h => hk (by simp [h])
    have hk2 : k ∉ rest.map Prod.fst := fun h => hk (by simp [h])
    rw [filterRebuildAllTrue, ih hk2]
    simp [cacheSet, hne]

/-- After the predicate-free `Reset` cache loop, every traversed item's flag
is true (identifiers being unique). -/
theorem filterRebuildAllTrue_cache [DecidableEq ι] (u : List (FItem ι V))
    (hnodup : (u.map Prod.fst).Nodup) :
    ∀ cache, ∀ it ∈ u, filterRebuildAllTrue u cache it.1 = some true := by
  induction u with
  | nil => intro cache it hit; exact absurd hit (List.not_mem_nil it)
  | cons hd rest ih =>
    intro cache it hit
    have hnd1 : hd.1 ∉ rest.map Prod.fst := (List.nodup_cons.mp hnodup).1
    have hnd2 : (rest.map Prod.fst).Nodup := (List.nodup_cons.mp hnodup).2
    rcases List.mem_cons.mp hit with rfl | hmem
    · rw [filterRebuildAllTrue, filterRebuildAllTrue_frozen rest it.1 hnd1]
      simp [cacheSet]
    · rw [filterRebuildAllTrue]
      exact ih hnd2 _ it hmem

/-- The reset step establishes the filter invariant over the new contents. -/
theorem filterInv_reset [DecidableEq ι] [Inhabited ι] [Inhabited V] (s : FilterSys ι V)
    (l : List (FItem ι V)) (hnodup : (l.map Prod.fst).Nodup) :
    FilterInv (filterStep s (SourceOp.resetTo l)) := by
  have hup : (filterStep s (SourceOp.resetTo l)).upstream = l := rfl
  rcases hpred : s.view.predicate with _ | p
  · have hview : (filterStep s (SourceOp.resetTo l)).view =
        ⟨l.map Prod.fst, filterRebuildAllTrue l (fun _ => none), none⟩ := by
      show (s.view.onSourceChanged l CollectionChange.resetChange).1 = _
      rw [FilterView.onSourceChanged, hpred]
      rfl
    refine ⟨?_, ?_, ?_, ?_⟩
    · rw [hup]
      exact hnodup
    · intro it hit
      rw [hup] at hit
      rw [hview]
      exact filterRebuildAllTrue_cache l hnodup _ it hit
    · rw [hview, hup]
      show (l.map Prod.fst).Perm _
      have hfl : (l.filter fun it =>
          passesItem (none : Option (FItem ι V → Bool)) it) = l :=
        List.filter_eq_self.mpr fun a _ => rfl
      rw [hfl]
    · rw [hview]
      exact hnodup
  · have hview : (filterStep s (SourceOp.resetTo l)).view =
        ⟨(filterRebuild p l ([], fun _ => none)).1,
          (filterRebuild p l ([], fun _ => none)).2, some p⟩ := by
      show (s.view.onSourceChanged l CollectionChange.resetChange).1 = _
      rw [FilterView.onSourceChanged, hpred]
      rfl
    refine ⟨?_, ?_, ?_, ?_⟩
    · rw [hup]
      exact hnodup
    · intro it hit
      rw [hup] at hit
      rw [hview]
      exact filterRebuild_cache p l hnodup _ _ it hit
    · rw [hview, hup]
      show (filterRebuild p l ([], fun _ => none)).1.Perm _
      rw [filterRebuild_items p l [] _, List.nil_append]
      exact List.Perm.refl _
    · rw [hview]
      show (filterRebuild p l ([], fun _ => none)).1.Nodup
      rw [filterRebuild_items p l [] _, List.nil_append]
      exact List.Nodup.sublist (List.Sublist.map Prod.fst (List.filter_sublist l)) hnodup

/-- The `setPredicate` step preserves the filter invariant. -/
theorem filterInv_setPred [DecidableEq ι] [Inhabited ι] [Inhabited V] (s : FilterSys ι V)
    (inv : FilterInv s) (p : Option (FItem ι V → Bool)) :
    FilterInv (filterStep s (SourceOp.setPred p)) := by
  have hcache := setPredicateLoop_cache p s.upstream inv.unodup s.view.itemFilterState [] false
  have hfil := setPredicateLoop_filtered p s.upstream s.view.itemFilterState [] false
  have hchg := setPredicateLoop_hasChange p s.upstream inv.unodup s.view.itemFilterState [] false
  have hstate : filterStep s (SourceOp.setPred p) =
      ⟨s.upstream, (s.view.setPredicate s.upstream p).1⟩ := rfl
  rw [hstate, FilterView.setPredicate]
  by_cases hc : (setPredicateLoop p s.upstream s.view.itemFilterState [] false).2.2 = true
  · rw [if_pos hc]
    refine ⟨inv.unodup, ?_, ?_, ?_⟩
    · intro it hit
      exact hcache it hit
    · show (setPredicateLoop p s.upstream s.view.itemFilterState [] false).2.1.Perm _
      rw [hfil, List.nil_append]
    · show (setPredicateLoop p s.upstream s.view.itemFilterState [] false).2.1.Nodup
      rw [hfil, List.nil_append]
      exact List.Nodup.sublist (List.Sublist.map Prod.fst (List.filter_sublist s.upstream))
        inv.unodup
  · rw [if_neg hc]
    have hall : ∀ it ∈ s.upstream, s.view.itemFilterState it.1 =
        some (passesItem p it) := by
      intro it hit
      by_contra hne
      exact hc (hchg.mpr (Or.inr ⟨it, hit, hne⟩))
    have hfiltereq : (s.upstream.filter fun it => passesItem p it) =
        (s.upstream.filter fun it => passesItem s.view.predicate it) := by
      apply List.filter_congr
      intro it hit
      have h2 := inv.cacheOk it hit
      rw [hall it hit] at h2
      exact Option.some.inj h2
    refine ⟨inv.unodup, ?_, ?_, inv.vnodup⟩
    · intro it hit
      exact hcache it hit
    · show s.view.items.Perm _
      rw [hfiltereq]
      exact inv.perm

/-- The state after the `FilterView` constructor satisfies the filter
invariant. -/
theorem filterInv_init [DecidableEq ι] (u0 : List (FItem ι V))
    (p0 : Option (FItem ι V → Bool)) (hnodup : (u0.map Prod.fst).Nodup) :
    FilterInv (filterInit u0 p0 : FilterSys ι V) := by
  rcases u0 with _ | ⟨hd, tl⟩
  · constructor <;> simp [filterInit, FilterView.setPredicate, setPredicateLoop]
  · have hcache := setPredicateLoop_cache p0 (hd :: tl) hnodup (fun _ => none) [] false
    have hfil := setPredicateLoop_filtered p0 (hd :: tl) (fun _ => none) [] false
    have hchg := setPredicateLoop_hasChange p0 (hd :: tl) hnodup (fun _ => none) [] false
    have hc : (setPredicateLoop p0 (hd :: tl) (fun _ => none) [] false).2.2 = true :=
      hchg.mpr (Or.inr ⟨hd, List.mem_cons_self _ _, by simp⟩)
    have hview : (filterInit (hd :: tl) p0 : FilterSys ι V).view =
        ⟨(setPredicateLoop p0 (hd :: tl) (fun _ => none) [] false).2.1,
          (setPredicateLoop p0 (hd :: tl) (fun _ => none) [] false).1, p0⟩ := by
      show (FilterView.setPredicate ⟨[], fun _ => none, none⟩ (hd :: tl) p0).1 = _
      rw [FilterView.setPredicate]
      dsimp only
      rw [if_pos hc]
    have hup : (filterInit (hd :: tl) p0 : FilterSys ι V).upstream = hd :: tl := rfl
    refine ⟨hnodup, ?_, ?_, ?_⟩
    · intro it hit
      rw [hup] at hit
      rw [hview]
      exact hcache it hit
    · rw [hview, hup]
      show (setPredicateLoop p0 (hd :: tl) (fun _ => none) [] false).2.1.Perm _
      rw [hfil, List.nil_append]
    · rw [hview]
      show (setPredicateLoop p0 (hd :: tl) (fun _ => none) [] false).2.1.Nodup
      rw [hfil, List.nil_append]
      exact List.Nodup.sublist (List.Sublist.map Prod.fst (List.filter_sublist (hd :: tl)))
        hnodup

/-- Any well-formed step preserves the filter invariant. -/
theorem filterInv_step [DecidableEq ι] [Inhabited ι] [Inhabited V] (s : FilterSys ι V)
    (inv : FilterInv s) (op : SourceOp ι V) (hwf : SourceOpWf s.upstream op) :
    FilterInv (filterStep s op) := by
  cases op with
  | insertItem id v => exact filterInv_insert s inv id v hwf
  | removeAt idx => exact filterInv_removeAt s inv idx hwf
  | updateItem id v => exact filterInv_update s inv id v hwf
  | resetTo l => exact filterInv_reset s l hwf
  | setPred p => exact filterInv_setPred s inv p

/-- Any well-formed run preserves the filter invariant. -/
theorem filterInv_run [DecidableEq ι] [Inhabited ι] [Inhabited V] :
    ∀ (ops : List (SourceOp ι V)) (s : FilterSys ι V), FilterInv s → WfOps s ops →
      FilterInv (filterRun s ops)
  | [], _, inv, _ => inv
  | op :: rest, s, inv, hwf =>
    filterInv_run rest (filterStep s op) (filterInv_step s inv op hwf.1) hwf.2

/-- C1 counterexample: from an empty source with predicate `0 < value`,
inserting id 1 with value 0, inserting id 2 with value 5, then updating id 1
to value 7 leaves the visible sequence `[2, 1]`, while the upstream items
passing the predicate are, in upstream relative order, `[1, 2]`: the
false-to-true `Update` branch appends at the visible tail, so the
"upstream relative order" clause of the claim fails. -/
theorem c1_update_breaks_order :
    (filterRun (filterInit ([] : List (FItem Nat Int)) c1pred) c1ops).view.items =
      [2, 1] ∧
    ((filterRun (filterInit ([] : List (FItem Nat Int)) c1pred) c1ops).upstream.filter
      fun it => passesItem (filterRun (filterInit ([] : List (FItem Nat Int)) c1pred)
        c1ops).view.predicate it).map Prod.fst = [1, 2] := by
  constructor
  · decide
  · decide

/-- C1 (corrected): after a well-formed sequence of upstream operations
(Insert, Remove, Update, Reset) and `setPredicate` calls has been fully
processed from a freshly constructed filter view, the passes cache holds the
current flag of every identifier present in the upstream source, and the
visible sequence is a duplicate-free permutation of the ids of exactly the
upstream items for which the current predicate returns true — but not
necessarily in upstream relative order, since an `Update` that flips an item
from hidden to visible appends it at the tail. -/
theorem c1_filter_invariant [DecidableEq ι] [Inhabited ι] [Inhabited V]
    (u0 : List (FItem ι V)) (p0 : Option (FItem ι V → Bool))
    (ops : List (SourceOp ι V)) (hnodup : (u0.map Prod.fst).Nodup)
    (hwf : WfOps (filterInit u0 p0) ops) :
    (∀ it ∈ (filterRun (filterInit u0 p0) ops).upstream,
      (filterRun (filterInit u0 p0) ops).view.itemFilterState it.1 =
        some (passesItem (filterRun (filterInit u0 p0) ops).view.predicate it)) ∧
    (filterRun (filterInit u0 p0) ops).view.items.Perm
      (((filterRun (filterInit u0 p0) ops).upstream.filter fun it =>
        passesItem (filterRun (filterInit u0 p0) ops).view.predicate it).map Prod.fst) ∧
    (filterRun (filterInit u0 p0) ops).view.items.Nodup := by
  have inv := filterInv_run ops (filterInit u0 p0) (filterInv_init u0 p0 hnodup) hwf
  exact ⟨inv.cacheOk, inv.perm, inv.vnodup⟩

/-- C1 witness: the amended invariant evaluated over the counterexample run
(the visible sequence `[2, 1]` is a permutation of the passing ids `[1, 2]`
and every upstream id is cached). -/
theorem c1_filter_invariant_witness :
    ((([] : List (FItem Nat Int)).map Prod.fst).Nodup ∧
      WfOps (filterInit ([] : List (FItem Nat Int)) c1pred) c1ops) ∧
    ((∀ it ∈ (filterRun (filterInit ([] : List (FItem Nat Int)) c1pred) c1ops).upstream,
      (filterRun (filterInit ([] : List (FItem Nat Int))
        c1pred) c1ops).view.itemFilterState it.1 =
        some (passesItem (filterRun (filterInit ([] : List (FItem Nat Int))
          c1pred) c1ops).view.predicate it)) ∧
    (filterRun (filterInit ([] : List (FItem Nat Int)) c1pred) c1ops).view.items.Perm
      (((filterRun (filterInit ([] : List (FItem Nat Int)) c1pred) c1ops).upstream.filter
        fun it => passesItem (filterRun (filterInit ([] : List (FItem Nat Int))
          c1pred) c1ops).view.predicate it).map Prod.fst) ∧
    (filterRun (filterInit ([] : List (FItem Nat Int)) c1pred)
      c1ops).view.items.Nodup) := by
  have h1 : (([] : List (FItem Nat Int)).map Prod.fst).Nodup := List.nodup_nil
  have h2 : WfOps (filterInit ([] : List (FItem Nat Int)) c1pred) c1ops := by
    refine ⟨?_, ?_, ?_, trivial⟩
    · show (1 : Nat) ∉ _
      decide
    · show (2 : Nat) ∉ _
      decide
    · show (1 : Nat) ∈ _
      decide
  exact ⟨⟨h1, h2⟩, c1_filter_invariant [] c1pred c1ops h1 h2⟩

end Biggus
